import Mathlib

/-!
Verification of the pbixparser repository (src/src/pbixparser.py) against its
natural-language specification.

The development shallowly embeds the Python code:

* `Value` is the tagged variant type for Python/JSON values handled by the
  parser (`str`, `int`, `bool`, `None`, `list`, `dict`); JSON numbers are
  modelled as integers (the repository never manipulates fractional values).
  Python `dict`s are modelled as ordered association lists with unique keys,
  matching insertion-ordered Python dictionaries.
* `Json.dumps` / `Json.loads` model the Python standard library's
  `json.dumps` / `json.loads` used by the code (default separators, string
  escaping; `loads` is the opportunistic probe that fails on non-JSON text).
* `recursive_parser_str2json` and `recursive_parser_json2str` embed the two
  recursive parsers of `PBIXSectionManager` (decode / encode directions).
* `rename_section` and `duplicate_section` embed the section mutation
  operations; Python exceptions are modelled with `Except PyErr`, where
  `PyErr.stopIteration` is the error raised by `next(filter(...))` when a
  name-based lookup finds no section (the specification's `NotFoundError`).
* A small heap model (`Obj`, `Heap`) captures Python object identity, so that
  the deep-copy isolation property of `copy.deepcopy` is expressible.
-/

namespace PBIX

/-- Tagged variant type for the JSON-like values the Python code manipulates:
strings, integers, booleans, `None`, lists, and insertion-ordered dicts. -/
inductive Value where
  | str (s : String)
  | int (n : Int)
  | bool (b : Bool)
  | null
  | list (xs : List Value)
  | dict (kvs : List (String × Value))
  deriving Repr, Inhabited

mutual

/-- Size measure on values: a string weighs its length plus one, other leaves
weigh one, and containers weigh one plus the weight of their children. -/
def weightV : Value → Nat
  | .str s => s.length + 1
  | .int _ => 1
  | .bool _ => 1
  | .null => 1
  | .list xs => weightL xs + 1
  | .dict kvs => weightKV kvs + 1

/-- Total weight of a list of values. -/
def weightL : List Value → Nat
  | [] => 0
  | x :: xs => weightV x + weightL xs

/-- Total weight of the values of an association list. -/
def weightKV : List (String × Value) → Nat
  | [] => 0
  | kv :: kvs => weightV kv.2 + weightKV kvs

end

end PBIX

namespace Json

open PBIX

/-- Hexadecimal digit character for a value below 16 (lower case, as produced
by Python's `json.dumps` in `\u00XX` escapes). -/
def hexDigit (n : Nat) : Char :=
  if n < 10 then Char.ofNat (48 + n) else Char.ofNat (87 + n)

/-- Escape of one character inside a JSON string literal, as performed by
Python's `json.dumps`: quote and backslash are backslash-escaped, the five
short control escapes are used, remaining control characters take the
`\u00XX` form, and every other character stands for itself.  (Python's
default `ensure_ascii` additionally escapes non-ASCII characters; the two
conventions parse back to the same string, and the repository's data is
ASCII, so the non-ASCII escaping is not modelled.) -/
def escapeChar (c : Char) : List Char :=
  if c = '"' then ['\\', '"']
  else if c = '\\' then ['\\', '\\']
  else if c = '\x08' then ['\\', 'b']
  else if c = '\x09' then ['\\', 't']
  else if c = '\x0a' then ['\\', 'n']
  else if c = '\x0c' then ['\\', 'f']
  else if c = '\x0d' then ['\\', 'r']
  else if c.toNat < 0x20 then
    ['\\', 'u', '0', '0', hexDigit (c.toNat / 16), hexDigit (c.toNat % 16)]
  else [c]

/-- Escape of a whole string body (no surrounding quotes). -/
def escapeString (s : String) : List Char :=
  (s.data.map escapeChar).flatten

/-- Character for a decimal digit value. -/
def digitChar (d : Nat) : Char := Char.ofNat (48 + d)

/-- Decimal digit characters of a natural number, most significant first;
structural on a fuel argument so that concrete values kernel-reduce. -/
def natDigitsAux : Nat → Nat → List Char
  | 0, _ => []
  | fuel + 1, n =>
      if n < 10 then [digitChar n]
      else natDigitsAux fuel (n / 10) ++ [digitChar (n % 10)]

/-- Decimal digit characters of a natural number, most significant first. -/
def natDigits (n : Nat) : List Char := natDigitsAux (n + 1) n

/-- Decimal representation of an integer, as printed by Python's `repr` /
`json.dumps` for `int` values. -/
def intChars (n : Int) : List Char :=
  if n < 0 then '-' :: natDigits (-n).toNat else natDigits n.toNat

mutual

/-- Serialization of a value to JSON text, as a character list.  This models
Python's `json.dumps` with its default separators: `", "` between items and
`": "` between a key and a value. -/
def dumpsV : Value → List Char
  | .str s => '"' :: (escapeString s ++ ['"'])
  | .int n => intChars n
  | .bool true => ['t', 'r', 'u', 'e']
  | .bool false => ['f', 'a', 'l', 's', 'e']
  | .null => ['n', 'u', 'l', 'l']
  | .list [] => ['[', ']']
  | .list (x :: xs) => '[' :: (dumpsV x ++ dumpsL xs ++ [']'])
  | .dict [] => ['\x7b', '\x7d']
  | .dict (kv :: kvs) =>
      '\x7b' :: ('"' :: (escapeString kv.1 ++ ['"', ':', ' ']) ++ dumpsV kv.2
        ++ dumpsKV kvs ++ ['\x7d'])

/-- Serialization of the remaining elements of a list, each preceded by
the `", "` separator. -/
def dumpsL : List Value → List Char
  | [] => []
  | x :: xs => ',' :: ' ' :: (dumpsV x ++ dumpsL xs)

/-- Serialization of the remaining members of an object, each preceded by
the `", "` separator. -/
def dumpsKV : List (String × Value) → List Char
  | [] => []
  | kv :: kvs =>
      ',' :: ' ' :: ('"' :: (escapeString kv.1 ++ ['"', ':', ' '])
        ++ dumpsV kv.2 ++ dumpsKV kvs)

end

/-- Python's `json.dumps`, producing a `String`. -/
def dumps (v : Value) : String := String.mk (dumpsV v)

/-- JSON whitespace characters (space, tab, newline, carriage return). -/
def isWs (c : Char) : Bool :=
  c = ' ' || c = '\x09' || c = '\x0a' || c = '\x0d'

/-- Drop leading JSON whitespace. -/
def skipWs : List Char → List Char
  | [] => []
  | c :: cs => if isWs c then skipWs cs else c :: cs

/-- Numeric value of one hexadecimal digit character. -/
def hexVal (c : Char) : Option Nat :=
  if '0' ≤ c ∧ c ≤ '9' then some (c.toNat - 48)
  else if 'a' ≤ c ∧ c ≤ 'f' then some (c.toNat - 87)
  else if 'A' ≤ c ∧ c ≤ 'F' then some (c.toNat - 55)
  else none

/-- Translation of a short escape character (the character after a
backslash) to the character it denotes, for the eight simple escapes. -/
def shortEscape (c : Char) : Option Char :=
  if c = '"' then some '"'
  else if c = '\\' then some '\\'
  else if c = '/' then some '/'
  else if c = 'b' then some '\x08'
  else if c = 'f' then some '\x0c'
  else if c = 'n' then some '\x0a'
  else if c = 'r' then some '\x0d'
  else if c = 't' then some '\x09'
  else none

/-- Decoding of a `\uXXXX` escape: four hexadecimal digits giving a scalar
value.  Escapes denoting surrogate code units are not modelled. -/
def parseEscU : List Char → Option (Char × List Char)
  | h1 :: h2 :: h3 :: h4 :: cs2 =>
      (hexVal h1).bind fun n1 =>
      (hexVal h2).bind fun n2 =>
      (hexVal h3).bind fun n3 =>
      (hexVal h4).bind fun n4 =>
      if (((n1 * 16 + n2) * 16 + n3) * 16 + n4).isValidChar then
        some (Char.ofNat (((n1 * 16 + n2) * 16 + n3) * 16 + n4), cs2)
      else none
  | _ => none

/-- Decoding of one escape sequence (the input starts right after the
backslash): a short escape or a `\uXXXX` escape. -/
def parseEsc : List Char → Option (Char × List Char)
  | [] => none
  | e :: cs1 =>
      if e = 'u' then parseEscU cs1
      else (shortEscape e).map (fun d => (d, cs1))

/-- Body of a JSON string literal, after the opening quote, fuel-indexed
(one unit of fuel per decoded character; the wrapper supplies the input
length).  Returns the decoded characters and the input remaining after the
closing quote.  Raw control characters are rejected (Python's strict
mode). -/
def parseStrBody : Nat → List Char → Option (List Char × List Char)
  | 0, _ => none
  | fuel + 1, cs =>
      match cs with
      | [] => none
      | c :: cs1 =>
          if c = '"' then some ([], cs1)
          else if c = '\\' then
            (parseEsc cs1).bind fun dc =>
              (parseStrBody fuel dc.2).map fun p => (dc.1 :: p.1, p.2)
          else if c.toNat < 0x20 then none
          else (parseStrBody fuel cs1).map fun p => (c :: p.1, p.2)

/-- Body of a JSON string literal, after the opening quote: returns the
decoded characters and the input remaining after the closing quote. -/
def parseStringBody (cs : List Char) : Option (List Char × List Char) :=
  parseStrBody cs.length cs

/-- Maximal run of decimal digits, accumulating their value. -/
def takeDigits (acc : Nat) : List Char → Nat × List Char
  | [] => (acc, [])
  | c :: cs =>
      if c.isDigit then takeDigits (acc * 10 + (c.toNat - 48)) cs
      else (acc, c :: cs)

/-- Holds when the input does not start with a decimal digit, so that a
number literal placed before it keeps its own extent when parsed. -/
def headNotDigit : List Char → Bool
  | [] => true
  | c :: _ => !c.isDigit

/-- JSON natural-number literal: a lone `0`, or a nonzero digit followed by a
maximal run of digits (leading zeros are not absorbed, as in the JSON number
grammar). -/
def parseNat : List Char → Option (Nat × List Char)
  | [] => none
  | c :: cs =>
      if c = '0' then some (0, cs)
      else if c.isDigit then some (takeDigits (c.toNat - 48) cs)
      else none

/-- JSON integer literal with optional minus sign.  Fractional and exponent
suffixes are outside the model (JSON numbers are modelled as integers); a
number followed by `.` or `e` leaves that suffix unconsumed, so an enclosing
context rejects it. -/
def parseNumber (cs : List Char) : Option (Value × List Char) :=
  match cs with
  | c :: cs1 =>
      if c = '-' then
        match parseNat cs1 with
        | some (n, rest) => some (.int (-(n : Int)), rest)
        | none => none
      else
        match parseNat cs with
        | some (n, rest) => some (.int (n : Int), rest)
        | none => none
  | [] => none

/-- Update-or-append on an ordered association list: the first binding of the
key is replaced in place, and an absent key is appended at the end.  This is
exactly the semantics of a Python `dict` assignment `d[k] = v`. -/
def dictSet (kvs : List (String × Value)) (k : String) (v : Value) :
    List (String × Value) :=
  match kvs with
  | [] => [(k, v)]
  | (k1, v1) :: rest =>
      if k1 = k then (k, v) :: rest else (k1, v1) :: dictSet rest k v

/-- Build a Python dict from parsed object members in order: repeated
assignment, so a duplicated key keeps its first position with its last
value, as in `json.loads`. -/
def fromMembers (ms : List (String × Value)) : List (String × Value) :=
  ms.foldl (fun acc kv => dictSet acc kv.1 kv.2) []

mutual

/-- Well-formedness of a value as a Python in-memory object: every mapping
node has pairwise-distinct keys (automatic for real Python dicts). -/
def nodupKeysV : Value → Bool
  | .str _ => true
  | .int _ => true
  | .bool _ => true
  | .null => true
  | .list xs => nodupKeysL xs
  | .dict kvs => decide ((kvs.map Prod.fst).Nodup) && nodupKeysKV kvs

/-- Key well-formedness of every element of a list. -/
def nodupKeysL : List Value → Bool
  | [] => true
  | x :: xs => nodupKeysV x && nodupKeysL xs

/-- Key well-formedness of every value of an association list. -/
def nodupKeysKV : List (String × Value) → Bool
  | [] => true
  | kv :: kvs => nodupKeysV kv.2 && nodupKeysKV kvs

end

mutual

/-- Recursive-descent JSON value parser, fuel-indexed (the fuel only pays for
nesting and list length; `loads` supplies enough for its whole input).
Leading whitespace is skipped; the value's text is consumed and the remaining
input returned. -/
def parseVal : Nat → List Char → Option (Value × List Char)
  | 0, _ => none
  | fuel + 1, cs =>
      match skipWs cs with
      | [] => none
      | c :: cs1 =>
          if c = '\x7b' then
            match skipWs cs1 with
            | [] => none
            | c2 :: cs2 =>
                if c2 = '\x7d' then some (.dict [], cs2)
                else
                  (parseMembs fuel (c2 :: cs2)).map fun p =>
                    (.dict (fromMembers p.1), p.2)
          else if c = '[' then
            match skipWs cs1 with
            | [] => none
            | c2 :: cs2 =>
                if c2 = ']' then some (.list [], cs2)
                else (parseElems fuel (c2 :: cs2)).map fun p => (.list p.1, p.2)
          else if c = '"' then
            (parseStringBody cs1).map fun p => (.str (String.mk p.1), p.2)
          else if c = 't' then
            if cs1.take 3 = ['r', 'u', 'e'] then some (.bool true, cs1.drop 3)
            else none
          else if c = 'f' then
            if cs1.take 4 = ['a', 'l', 's', 'e'] then some (.bool false, cs1.drop 4)
            else none
          else if c = 'n' then
            if cs1.take 3 = ['u', 'l', 'l'] then some (.null, cs1.drop 3)
            else none
          else parseNumber (c :: cs1)

/-- Nonempty tail of a JSON array: one value, then either `,` and more
elements or the closing `]`. -/
def parseElems : Nat → List Char → Option (List Value × List Char)
  | 0, _ => none
  | fuel + 1, cs =>
      (parseVal fuel cs).bind fun vr =>
        match skipWs vr.2 with
        | [] => none
        | c :: rest1 =>
            if c = ',' then
              (parseElems fuel rest1).map fun p => (vr.1 :: p.1, p.2)
            else if c = ']' then some ([vr.1], rest1)
            else none

/-- Nonempty tail of a JSON object: one `"key": value` member, then either
`,` and more members or the closing brace. -/
def parseMembs : Nat → List Char → Option (List (String × Value) × List Char)
  | 0, _ => none
  | fuel + 1, cs =>
      match skipWs cs with
      | [] => none
      | c :: cs1 =>
          if c = '"' then
            (parseStringBody cs1).bind fun kr =>
              match skipWs kr.2 with
              | [] => none
              | c2 :: cs2 =>
                  if c2 = ':' then
                    (parseVal fuel cs2).bind fun vr =>
                      match skipWs vr.2 with
                      | [] => none
                      | c3 :: rest1 =>
                          if c3 = ',' then
                            (parseMembs fuel rest1).map fun p =>
                              ((String.mk kr.1, vr.1) :: p.1, p.2)
                          else if c3 = '\x7d' then
                            some ([(String.mk kr.1, vr.1)], rest1)
                          else none
                  else none
          else none

end

/-- Python's `json.loads`: parse one JSON value, allowing surrounding
whitespace and requiring the whole input to be consumed; `none` models a
raised `JSONDecodeError`. -/
def loads (s : String) : Option Value :=
  match parseVal (2 * s.data.length + 2) s.data with
  | some (v, rest) =>
      match skipWs rest with
      | [] => some v
      | _ => none
  | none => none

end Json

namespace PBIX

/-- The two special-parsing keys of `PBIXSectionManager`
(`special_parsing_keys = ["config", "filters"]`). -/
def special_parsing_keys : List String := ["config", "filters"]

/-- Fuel-indexed embedding of `__recursive_parser_str2json` (the decode
direction): a string is probed with `json.loads` and, on success, the parse
result is recursively processed; lists and dicts are processed element- and
value-wise; other values pass through.  The fuel is a termination device
only: `recursive_parser_str2json` instantiates it with the value's weight,
which the parser consumption bound proves sufficient. -/
def str2jsonF : Nat → Value → Value
  | 0, v => v
  | fuel + 1, data =>
      match data with
      | .str s =>
          match Json.loads s with
          | some v => str2jsonF fuel v
          | none => .str s
      | .list xs => .list (xs.map (str2jsonF fuel))
      | .dict kvs => .dict (kvs.map (fun kv => (kv.1, str2jsonF fuel kv.2)))
      | v => v

/-- Embedding of `PBIXSectionManager.__recursive_parser_str2json`. -/
def recursive_parser_str2json (v : Value) : Value := str2jsonF (weightV v) v

mutual

/-- Embedding of `PBIXSectionManager.__recursive_parser_json2str` (the
encode direction): inside a dict, a value under a special-parsing key is
replaced by its `json.dumps` string without further recursion; all other
dict values and all list elements are processed recursively; leaves pass
through. -/
def recursive_parser_json2str : Value → Value
  | .str s => .str s
  | .int n => .int n
  | .bool b => .bool b
  | .null => .null
  | .list xs => .list (json2strList xs)
  | .dict kvs => .dict (json2strKVs kvs)

/-- Elementwise encode recursion over a list (`for i, v in enumerate(data):
data[i] = ...`). -/
def json2strList : List Value → List Value
  | [] => []
  | x :: xs => recursive_parser_json2str x :: json2strList xs

/-- Valuewise encode recursion over a dict (`for k, v in data.items()`):
`data[k] = json.dumps(v)` when `k in special_parsing_keys`, else the
recursive call. -/
def json2strKVs : List (String × Value) → List (String × Value)
  | [] => []
  | kv :: kvs =>
      (kv.1,
        if kv.1 ∈ special_parsing_keys then .str (Json.dumps kv.2)
        else recursive_parser_json2str kv.2) :: json2strKVs kvs

end

/-- The StructuralCodec decode direction of the specification: the Layout
text is handed to the recursive parser as a Python `str`. -/
def decode (s : String) : Value := recursive_parser_str2json (.str s)

/-- The StructuralCodec encode direction of the specification: the tree is
rewritten by the recursive encode parser and wrapped in one outer
`json.dumps`, as in `PBIXSectionManager.save`. -/
def encode (v : Value) : String := Json.dumps (recursive_parser_json2str v)

/-- Python exceptions raised by the section operations: `StopIteration`
(raised by `next(filter(...))` when no section matches a looked-up name —
the specification's `NotFoundError`), `KeyError` (missing dict key) and
`TypeError` (an operation applied to a value of the wrong type). -/
inductive PyErr where
  | stopIteration
  | keyError
  | typeError
  deriving Repr, DecidableEq

/-- Python `section["displayName"] == name` for an arbitrary value: only a
string equal to `name` compares equal. -/
def pyEqStr (v : Value) (s : String) : Bool :=
  match v with
  | .str t => t = s
  | _ => false

/-- Index of the first section whose `displayName` equals `name`, evaluated
lazily left to right as `next(filter(lambda x: x["displayName"] == name,
sections))` does: a section without the key raises `KeyError`, a non-dict
section raises `TypeError`, exhaustion raises `StopIteration`. -/
def find_first_idx (name : String) : List Value → Except PyErr Nat
  | [] => .error .stopIteration
  | s :: rest =>
      match s with
      | .dict kvs =>
          match kvs.lookup "displayName" with
          | some v =>
              if pyEqStr v name then .ok 0
              else (find_first_idx name rest).map (· + 1)
          | none => .error .keyError
      | _ => .error .typeError

/-- Access `self.layout["sections"]`, requiring the layout to be a dict with
a `sections` key holding a list; returns the layout's entries and the
sections list. -/
def get_sections (layout : Value) :
    Except PyErr (List (String × Value) × List Value) :=
  match layout with
  | .dict kvs =>
      match kvs.lookup "sections" with
      | some (.list l) => .ok (kvs, l)
      | some _ => .error .typeError
      | none => .error .keyError
  | _ => .error .typeError

/-- Assignment `sec["displayName"] = new_name` on a section value. -/
def set_displayName (sec : Value) (new_name : String) : Value :=
  match sec with
  | .dict skvs => .dict (Json.dictSet skvs "displayName" (.str new_name))
  | v => v

/-- Embedding of `PBIXSectionManager.rename_section`: find the first section
named `crt_name` and set its `displayName` to `new_name` in place. -/
def rename_section (layout : Value) (crt_name new_name : String) :
    Except PyErr Value := do
  let (kvs, sections) ← get_sections layout
  let i ← find_first_idx crt_name sections
  let sec2 := set_displayName (sections.getD i .null) new_name
  .ok (.dict (Json.dictSet kvs "sections" (.list (sections.set i sec2))))

/-- Python `sec["ordinal"]` followed by `+ 1`-style integer use: an `int`
is returned as such and a `bool` coerces to `0`/`1` (Python `bool` is an
`int` subtype); anything else raises. -/
def get_ordinal (sec : Value) : Except PyErr Int :=
  match sec with
  | .dict skvs =>
      match skvs.lookup "ordinal" with
      | some (.int n) => .ok n
      | some (.bool b) => .ok (if b then 1 else 0)
      | some _ => .error .typeError
      | none => .error .keyError
  | _ => .error .typeError

/-- Python index clamping, shared by `list.insert` and slicing `l[i:]`: a
negative index counts from the end and is clamped at `0`; a positive index
is clamped at the length. -/
def pyClampIndex (n : Nat) (i : Int) : Nat :=
  if i < 0 then ((n : Int) + i).toNat else min i.toNat n

/-- Python `sections.insert(i, x)`. -/
def pyInsert (l : List Value) (i : Int) (x : Value) : List Value :=
  let j := pyClampIndex l.length i
  l.take j ++ x :: l.drop j

/-- The reindex loop `for i, s in enumerate(sections[sec_idx:]):
s["ordinal"] = i + sec_idx`, assigning consecutive ordinals starting at
`start` to each section of the slice; a non-dict element raises
`TypeError` (no item assignment). -/
def set_ordinals : Int → List Value → Except PyErr (List Value)
  | _, [] => .ok []
  | i, s :: rest =>
      match s with
      | .dict skvs => do
          let rest2 ← set_ordinals (i + 1) rest
          .ok (.dict (Json.dictSet skvs "ordinal" (.int i)) :: rest2)
      | _ => .error .typeError

/-- Embedding of `PBIXSectionManager.duplicate_section`: deep-copy the first
section named `name_to_dup` (value semantics; object identity is treated in
the heap model), rename the copy to `new_name`, insert it after the first
section named `name_after` at index `anchor["ordinal"] + 1`, and reassign
ordinals from the insertion index onward. -/
def duplicate_section (layout : Value)
    (name_to_dup name_after new_name : String) : Except PyErr Value := do
  let (kvs, sections) ← get_sections layout
  let pdup ← find_first_idx name_to_dup sections
  let dup := set_displayName (sections.getD pdup .null) new_name
  let panchor ← find_first_idx name_after sections
  let ord ← get_ordinal (sections.getD panchor .null)
  let sec_idx : Int := ord + 1
  let sections2 := pyInsert sections sec_idx dup
  let j := pyClampIndex sections2.length sec_idx
  let tail2 ← set_ordinals sec_idx (sections2.drop j)
  .ok (.dict (Json.dictSet kvs "sections" (.list (sections2.take j ++ tail2))))

/-- One chainable section mutation. -/
inductive SectionOp where
  | rename (crt_name new_name : String)
  | duplicate (name_to_dup name_after new_name : String)

/-- Application of one mutation to the layout. -/
def apply_op (layout : Value) : SectionOp → Except PyErr Value
  | .rename c n => rename_section layout c n
  | .duplicate a b c => duplicate_section layout a b c

/-- Application of a sequence of mutations, aborting at the first error, as
a chained call sequence does. -/
def apply_ops : Value → List SectionOp → Except PyErr Value
  | layout, [] => .ok layout
  | layout, op :: ops => do apply_ops (← apply_op layout op) ops

/-- The `ordinal` field of a section value: `some n` when the section is a
dict whose `ordinal` key holds the integer `n`. -/
def sec_ord (s : Value) : Option Int :=
  match s with
  | .dict skvs =>
      match skvs.lookup "ordinal" with
      | some (.int n) => some n
      | _ => none
  | _ => none

/-- Ordinal contiguity of a document: the layout is a dict whose `sections`
key holds a list, and the section at every position `i` is a dict whose
`ordinal` is the integer `i`. -/
def ordinals_contiguous (layout : Value) : Bool :=
  match layout with
  | .dict kvs =>
      match kvs.lookup "sections" with
      | some (.list l) =>
          (List.range l.length).all fun i =>
            sec_ord (l.getD i .null) == some (i : Int)
      | _ => false
  | _ => false

/-- Every section of the document is a dict that has a `displayName` key
(the data-model shape the specification assumes for sections). -/
def sections_well_named (sections : List Value) : Bool :=
  sections.all fun s =>
    match s with
    | .dict skvs => (skvs.lookup "displayName").isSome
    | _ => false

/-- A section matches a looked-up name when it is a dict whose
`displayName` value equals the name (Python string equality). -/
def section_named (s : Value) (name : String) : Bool :=
  match s with
  | .dict skvs =>
      match skvs.lookup "displayName" with
      | some v => pyEqStr v name
      | none => false
  | _ => false

/-- Assignment `s["ordinal"] = m` on a section value (non-dicts returned
unchanged; the callers only apply it to dicts). -/
def set_ordinal (sec : Value) (m : Int) : Value :=
  match sec with
  | .dict skvs => .dict (Json.dictSet skvs "ordinal" (.int m))
  | v => v

/-- Closed form of the reindex loop on a slice: consecutive ordinals
starting at `i`, one per element. -/
def ordinalsFrom (i : Int) : List Value → List Value
  | [] => []
  | s :: rest => set_ordinal s i :: ordinalsFrom (i + 1) rest

mutual

/-- Holds when no string anywhere in the tree (in value position) is itself
parseable JSON text: the fixed points of the decode recursion. -/
def json_free : Value → Bool
  | .str s => (Json.loads s).isNone
  | .int _ => true
  | .bool _ => true
  | .null => true
  | .list xs => json_freeL xs
  | .dict kvs => json_freeKV kvs

/-- List version of `json_free`. -/
def json_freeL : List Value → Bool
  | [] => true
  | x :: xs => json_free x && json_freeL xs

/-- Association-list version of `json_free` (keys are not value positions
and are not inspected). -/
def json_freeKV : List (String × Value) → Bool
  | [] => true
  | kv :: kvs => json_free kv.2 && json_freeKV kvs

end

mutual

/-- Holds when no dict anywhere in the tree binds a special-parsing key
(`config` / `filters`). -/
def no_special_keys : Value → Bool
  | .str _ => true
  | .int _ => true
  | .bool _ => true
  | .null => true
  | .list xs => no_special_keysL xs
  | .dict kvs => no_special_keysKV kvs

/-- List version of `no_special_keys`. -/
def no_special_keysL : List Value → Bool
  | [] => true
  | x :: xs => no_special_keys x && no_special_keysL xs

/-- Association-list version of `no_special_keys`. -/
def no_special_keysKV : List (String × Value) → Bool
  | [] => true
  | kv :: kvs =>
      !(decide (kv.1 ∈ special_parsing_keys)) && no_special_keys kv.2
        && no_special_keysKV kvs

end

end PBIX

/-! ## Heap model for object identity

`copy.deepcopy(section)` in `duplicate_section` is about object identity,
not values: the copy must share no mutable object with the original.  The
value embedding above cannot express sharing, so aliasing claims are stated
over an explicit heap: objects live at numeric addresses, lists and dicts
hold references, and a heap is an address-indexed store.  Heaps built by
allocation have the pointers-down property (an object only references
earlier addresses), which `heapWF` captures. -/

namespace PBIX

/-- A store node: an immutable leaf value, a mutable list of references, or
a mutable string-keyed mapping of references. -/
inductive Obj where
  | leaf (v : Value)
  | listObj (es : List Nat)
  | dictObj (fs : List (String × Nat))

/-- A heap is an address-indexed store of nodes (address = list index). -/
abbrev Heap : Type := List Obj

/-- The addresses a node references. -/
def objRefs : Obj → List Nat
  | .leaf _ => []
  | .listObj es => es
  | .dictObj fs => fs.map (·.2)

/-- Pointers-down wellformedness: every node references only strictly
earlier addresses, as in a heap grown by allocation. -/
def heapWF (h : Heap) : Bool :=
  (List.range h.length).all fun i =>
    (objRefs (h.getD i (.leaf .null))).all (· < i)

/-- Read the value of the object graph rooted at address `a`, to depth
`fuel` (any `fuel > a` is exact on a pointers-down heap). -/
def valueAtF : Nat → Heap → Nat → Value
  | 0, _, _ => .null
  | fuel + 1, h, a =>
      match h.getD a (.leaf .null) with
      | .leaf v => v
      | .listObj es => .list (es.map (valueAtF fuel h))
      | .dictObj fs => .dict (fs.map fun kv => (kv.1, valueAtF fuel h kv.2))

/-- Copy each listed reference in turn with `f`, threading the heap and
collecting the fresh addresses. -/
def copyRefList (f : Heap → Nat → Heap × Nat) : Heap → List Nat → Heap × List Nat
  | h, [] => (h, [])
  | h, e :: es =>
      let p := f h e
      let q := copyRefList f p.1 es
      (q.1, p.2 :: q.2)

/-- Keyed variant of `copyRefList` for dict fields. -/
def copyRefKVs (f : Heap → Nat → Heap × Nat) :
    Heap → List (String × Nat) → Heap × List (String × Nat)
  | h, [] => (h, [])
  | h, kv :: fs =>
      let p := f h kv.2
      let q := copyRefKVs f p.1 fs
      (q.1, (kv.1, p.2) :: q.2)

/-- `copy.deepcopy` on the heap: recursively copy the object graph rooted
at `a` into fresh addresses at the end of the heap (children first, then
the node itself), returning the extended heap and the copy's root address.
`fuel > a` suffices on a pointers-down heap. -/
def deepcopyF : Nat → Heap → Nat → Heap × Nat
  | 0, h, _ => (h ++ [.leaf .null], h.length)
  | fuel + 1, h, a =>
      match h.getD a (.leaf .null) with
      | .leaf v => (h ++ [.leaf v], h.length)
      | .listObj es =>
          let q := copyRefList (deepcopyF fuel) h es
          (q.1 ++ [.listObj q.2], q.1.length)
      | .dictObj fs =>
          let q := copyRefKVs (deepcopyF fuel) h fs
          (q.1 ++ [.dictObj q.2], q.1.length)

/-- In-place mutation of the node at address `b` (e.g. an item assignment
on a nested list or dict). -/
def heapSet (h : Heap) (b : Nat) (o : Obj) : Heap :=
  List.set h b o

/-- `h2` extends `h`: it is at least as long and agrees with `h` on every
address of `h`. -/
def HeapExtends (h h2 : Heap) : Prop :=
  h.length ≤ h2.length ∧
  ∀ b, b < h.length → h2.getD b (.leaf .null) = h.getD b (.leaf .null)

/-- The region `h2` added on top of `h` is self-contained: nodes there
reference only other added addresses, and only earlier ones. -/
def FreshClosed (h h2 : Heap) : Prop :=
  ∀ b, h.length ≤ b → b < h2.length →
    ∀ x ∈ objRefs (h2.getD b (.leaf .null)), h.length ≤ x ∧ x < b

/-- Specification bundle for `deepcopyF fc h a = res`: the heap is only
extended, the added region is self-contained, the copy root is fresh, and
the copy reads back to the same value at every depth up to `fc`. -/
def DeepcopyProps (fc : Nat) (h : Heap) (a : Nat) (res : Heap × Nat) : Prop :=
  HeapExtends h res.1 ∧ FreshClosed h res.1
  ∧ h.length ≤ res.2 ∧ res.2 < res.1.length
  ∧ ∀ f, f ≤ fc → valueAtF f res.1 res.2 = valueAtF f h a

end PBIX

/-! Theorems: weight measure. -/

namespace PBIX

theorem weightV_pos (v : Value) : 1 ≤ weightV v := by
  cases v <;> simp [weightV]

theorem weightL_mem {x : Value} {xs : List Value} (h : x ∈ xs) :
    weightV x ≤ weightL xs := by
  induction xs with
  | nil => cases h
  | cons y ys ih =>
    rcases List.mem_cons.mp h with rfl | h
    · simp [weightL]
    · have := ih h
      simp [weightL]; omega

theorem weightKV_mem {kv : String × Value} {kvs : List (String × Value)}
    (h : kv ∈ kvs) : weightV kv.2 ≤ weightKV kvs := by
  induction kvs with
  | nil => cases h
  | cons y ys ih =>
    rcases List.mem_cons.mp h with rfl | h
    · simp [weightKV]
    · have := ih h
      simp [weightKV]; omega

end PBIX

/-! Theorems: digit printing and character helpers. -/

namespace Json

open PBIX

theorem char_toNat_ofNat {n : Nat} (h : n.isValidChar) :
    (Char.ofNat n).toNat = n := by
  rw [Char.ofNat, dif_pos h]
  rfl

theorem natDigitsAux_eq {n : Nat} : ∀ {f1 f2 : Nat}, n < f1 → n < f2 →
    natDigitsAux f1 n = natDigitsAux f2 n := by
  induction n using Nat.strong_induction_on with
  | _ n ih =>
    intro f1 f2 h1 h2
    match f1, f2 with
    | g1 + 1, g2 + 1 =>
      by_cases hn : n < 10
      · simp [natDigitsAux, hn]
      · have hd : n / 10 < n := Nat.div_lt_self (by omega) (by omega)
        simp only [natDigitsAux, if_neg hn]
        rw [@ih (n / 10) hd g1 g2 (by omega) (by omega)]

theorem natDigits_of_lt_ten {n : Nat} (h : n < 10) :
    natDigits n = [digitChar n] := by
  simp [natDigits, natDigitsAux, h]

theorem natDigits_of_ten_le {n : Nat} (h : 10 ≤ n) :
    natDigits n = natDigits (n / 10) ++ [digitChar (n % 10)] := by
  have hd : n / 10 < n := Nat.div_lt_self (by omega) (by omega)
  have hn : ¬ n < 10 := by omega
  have h1 : natDigits n = natDigitsAux (n + 1) n := rfl
  have h2 : natDigitsAux (n + 1) n
      = natDigitsAux n (n / 10) ++ [digitChar (n % 10)] := by
    simp only [natDigitsAux, if_neg hn]
  rw [h1, h2, @natDigitsAux_eq (n / 10) n (n / 10 + 1) (by omega) (by omega)]
  rfl

theorem uint32_le_iff {a b : UInt32} : a ≤ b ↔ a.toNat ≤ b.toNat := by
  simp [UInt32.le_def, BitVec.le_def, UInt32.toNat]

theorem digitChar_toNat {d : Nat} (h : d < 10) : (digitChar d).toNat = 48 + d :=
  char_toNat_ofNat (Or.inl (by omega))

theorem isDigit_iff {c : Char} : c.isDigit = true ↔ 48 ≤ c.toNat ∧ c.toNat ≤ 57 := by
  have h48 : (48 : UInt32).toNat = 48 := rfl
  have h57 : (57 : UInt32).toNat = 57 := rfl
  simp only [Char.isDigit, ge_iff_le, Bool.and_eq_true, decide_eq_true_eq]
  rw [uint32_le_iff, uint32_le_iff, h48, h57]
  exact Iff.rfl

theorem digitChar_isDigit {d : Nat} (h : d < 10) : (digitChar d).isDigit = true := by
  rw [isDigit_iff, digitChar_toNat h]
  omega

theorem char_ne_of_toNat_ne {c d : Char} (h : c.toNat ≠ d.toNat) : c ≠ d := by
  intro hcd
  exact h (congrArg Char.toNat hcd)

theorem natDigits_ne_nil (n : Nat) : natDigits n ≠ [] := by
  by_cases h : n < 10
  · simp [natDigits_of_lt_ten h]
  · rw [natDigits_of_ten_le (show 10 ≤ n by omega)]
    simp

theorem natDigits_all_digits {n : Nat} : ∀ c ∈ natDigits n, c.isDigit = true := by
  induction n using Nat.strong_induction_on with
  | _ n ih =>
    by_cases h : n < 10
    · rw [natDigits_of_lt_ten h]
      intro c hc
      rw [List.mem_singleton] at hc
      subst hc
      exact digitChar_isDigit h
    · rw [natDigits_of_ten_le (by omega)]
      intro c hc
      rcases List.mem_append.mp hc with hc | hc
      · exact ih (n / 10) (Nat.div_lt_self (by omega) (by omega)) c hc
      · rw [List.mem_singleton] at hc
        subst hc
        exact digitChar_isDigit (Nat.mod_lt _ (by omega))

theorem natDigits_head_ne_zero {n : Nat} (hn : 1 ≤ n) {c : Char}
    {cs : List Char} (h : natDigits n = c :: cs) : c ≠ '0' := by
  induction n using Nat.strong_induction_on generalizing c cs with
  | _ n ih =>
    by_cases h10 : n < 10
    · rw [natDigits_of_lt_ten h10] at h
      have hc : digitChar n = c := by simpa using congrArg List.head? h
      subst hc
      apply char_ne_of_toNat_ne
      rw [digitChar_toNat h10]
      show 48 + n ≠ 48
      omega
    · rw [natDigits_of_ten_le (show 10 ≤ n by omega)] at h
      obtain ⟨d, ds, hd⟩ := List.exists_cons_of_ne_nil (natDigits_ne_nil (n / 10))
      rw [hd, List.cons_append] at h
      injection h with h1 h2
      subst h1
      exact ih (n / 10) (Nat.div_lt_self (by omega) (by omega))
        (Nat.one_le_div_iff (by omega) |>.mpr (by omega)) hd

theorem natDigits_foldl {n : Nat} : ∀ acc,
    (natDigits n).foldl (fun a c => a * 10 + (c.toNat - 48)) acc
      = acc * 10 ^ (natDigits n).length + n := by
  induction n using Nat.strong_induction_on with
  | _ n ih =>
    intro acc
    by_cases h : n < 10
    · rw [natDigits_of_lt_ten h]
      simp [List.foldl, digitChar_toNat h]
    · rw [natDigits_of_ten_le (by omega)]
      rw [List.foldl_append, List.length_append]
      rw [ih (n / 10) (Nat.div_lt_self (by omega) (by omega)) acc]
      simp only [List.foldl, List.length_singleton]
      rw [digitChar_toNat (Nat.mod_lt _ (by omega))]
      have : acc * 10 ^ ((natDigits (n / 10)).length + 1)
          = (acc * 10 ^ (natDigits (n / 10)).length) * 10 := by ring
      rw [this]
      omega

theorem takeDigits_append {ds rest : List Char} (hds : ∀ c ∈ ds, c.isDigit = true)
    (hrest : headNotDigit rest = true) : ∀ acc,
    takeDigits acc (ds ++ rest)
      = (ds.foldl (fun a c => a * 10 + (c.toNat - 48)) acc, rest) := by
  induction ds with
  | nil =>
    intro acc
    cases rest with
    | nil => rfl
    | cons c cs =>
      have hc : c.isDigit = false := by
        simpa [headNotDigit] using hrest
      simp [takeDigits, hc]
  | cons d ds ih =>
    intro acc
    have hd : d.isDigit = true := hds d (by simp)
    simp only [List.cons_append, takeDigits, hd, if_pos]
    exact ih (fun c hc => hds c (by simp [hc])) _

theorem parseNat_natDigits {n : Nat} {rest : List Char}
    (hrest : headNotDigit rest = true) :
    parseNat (natDigits n ++ rest) = some (n, rest) := by
  by_cases h0 : n = 0
  · subst h0
    rw [natDigits_of_lt_ten (by omega)]
    simp [parseNat, digitChar]
  · obtain ⟨c, cs, hcons⟩ := List.exists_cons_of_ne_nil (natDigits_ne_nil n)
    have hcd : c.isDigit = true := natDigits_all_digits c (by rw [hcons]; simp)
    have hc0 : c ≠ '0' := natDigits_head_ne_zero (by omega) hcons
    have hall : ∀ x ∈ cs, x.isDigit = true := by
      intro x hx
      exact natDigits_all_digits x (by rw [hcons]; simp [hx])
    have hfold := @natDigits_foldl n 0
    rw [hcons] at hfold
    simp only [List.foldl_cons, Nat.zero_mul, Nat.zero_add] at hfold
    rw [hcons, List.cons_append, parseNat, if_neg hc0, if_pos hcd,
      takeDigits_append hall hrest]
    rw [hfold]

theorem isDigit_ne_minus {c : Char} (h : c.isDigit = true) : c ≠ '-' := by
  apply char_ne_of_toNat_ne
  rw [isDigit_iff] at h
  have : ('-').toNat = 45 := rfl
  omega

theorem parseNumber_intChars {n : Int} {rest : List Char}
    (hrest : headNotDigit rest = true) :
    parseNumber (intChars n ++ rest) = some (.int n, rest) := by
  by_cases hneg : n < 0
  · rw [intChars, if_pos hneg, List.cons_append]
    simp only [parseNumber, if_pos rfl, parseNat_natDigits hrest]
    simp only [Int.toNat_of_nonneg (show (0 : Int) ≤ -n by omega), Int.neg_neg]
    simp
  · rw [intChars, if_neg hneg]
    obtain ⟨c, cs, hcons⟩ := List.exists_cons_of_ne_nil (natDigits_ne_nil n.toNat)
    have hcd : c.isDigit = true := natDigits_all_digits c (by rw [hcons]; simp)
    have hcm : c ≠ '-' := isDigit_ne_minus hcd
    rw [hcons, List.cons_append]
    simp only [parseNumber, if_neg hcm]
    rw [← List.cons_append, ← hcons, parseNat_natDigits hrest]
    have h1 : ((n.toNat : Nat) : Int) = n := by omega
    simp [h1]

theorem char_le_iff {a b : Char} : a ≤ b ↔ a.toNat ≤ b.toNat := by
  rw [Char.le_def, uint32_le_iff]
  exact Iff.rfl

theorem hexVal_hexDigit {d : Nat} (h : d < 16) : hexVal (hexDigit d) = some d := by
  by_cases h10 : d < 10
  · have ht : (hexDigit d).toNat = 48 + d := by
      rw [hexDigit, if_pos h10]
      exact char_toNat_ofNat (Or.inl (by omega))
    rw [hexVal, if_pos]
    · rw [ht]
      simp
    · constructor
      · rw [char_le_iff, ht]
        show 48 ≤ 48 + d
        omega
      · rw [char_le_iff, ht]
        show 48 + d ≤ 57
        omega
  · have ht : (hexDigit d).toNat = 87 + d := by
      rw [hexDigit, if_neg h10]
      exact char_toNat_ofNat (Or.inl (by omega))
    rw [hexVal, if_neg, if_pos]
    · rw [ht]
      simp
    · constructor
      · rw [char_le_iff, ht]
        show 97 ≤ 87 + d
        omega
      · rw [char_le_iff, ht]
        show 87 + d ≤ 102
        omega
    · intro hc
      rcases hc with ⟨_, hc2⟩
      rw [char_le_iff, ht] at hc2
      revert hc2
      show ¬ 87 + d ≤ 57
      omega

theorem parseStrBody_nil (fuel : Nat) : parseStrBody fuel [] = none := by
  cases fuel <;> simp [parseStrBody]

theorem parseEscU_length {cs cs2 : List Char} {d : Char}
    (h : parseEscU cs = some (d, cs2)) : cs2.length + 4 ≤ cs.length := by
  match cs with
  | [] => simp [parseEscU] at h
  | [_] => simp [parseEscU] at h
  | [_, _] => simp [parseEscU] at h
  | [_, _, _] => simp [parseEscU] at h
  | h1 :: h2 :: h3 :: h4 :: cs3 =>
    rw [parseEscU] at h
    rcases e1 : hexVal h1 with _ | n1 <;> rw [e1] at h
    · exact Option.noConfusion h
    rw [Option.some_bind] at h
    rcases e2 : hexVal h2 with _ | n2 <;> rw [e2] at h
    · exact Option.noConfusion h
    rw [Option.some_bind] at h
    rcases e3 : hexVal h3 with _ | n3 <;> rw [e3] at h
    · exact Option.noConfusion h
    rw [Option.some_bind] at h
    rcases e4 : hexVal h4 with _ | n4 <;> rw [e4] at h
    · exact Option.noConfusion h
    rw [Option.some_bind] at h
    split at h
    · rw [Option.some.injEq, Prod.mk.injEq] at h
      rcases h with ⟨-, rfl⟩
      simp
    · exact Option.noConfusion h

theorem parseEsc_length {cs cs2 : List Char} {d : Char}
    (h : parseEsc cs = some (d, cs2)) : cs2.length + 1 ≤ cs.length := by
  match cs with
  | [] => simp [parseEsc] at h
  | e :: cs1 =>
    by_cases he : e = 'u'
    · rw [parseEsc, if_pos he] at h
      have := parseEscU_length h
      simp only [List.length_cons]
      omega
    · rw [parseEsc, if_neg he] at h
      rcases hs : shortEscape e with _ | d2 <;> rw [hs] at h
      · exact Option.noConfusion h
      · rw [Option.map_some', Option.some.injEq, Prod.mk.injEq] at h
        rcases h with ⟨-, rfl⟩
        simp

theorem parseStrBody_eq_of_le : ∀ {f1 f2 : Nat} {cs : List Char},
    cs.length ≤ f1 → cs.length ≤ f2 → parseStrBody f1 cs = parseStrBody f2 cs := by
  intro f1
  induction f1 with
  | zero =>
    intro f2 cs h1 h2
    have : cs = [] := List.eq_nil_of_length_eq_zero (by omega)
    subst this
    rw [parseStrBody_nil, parseStrBody_nil]
  | succ f1 ih =>
    intro f2 cs h1 h2
    cases cs with
    | nil => rw [parseStrBody_nil, parseStrBody_nil]
    | cons c cs1 =>
      cases f2 with
      | zero => simp at h2
      | succ f2 =>
        simp only [parseStrBody]
        by_cases hq : c = '"'
        · simp [hq]
        · by_cases hb : c = '\\'
          · simp only [if_neg hq, if_pos hb]
            rcases he : parseEsc cs1 with _ | dc
            · rw [Option.none_bind, Option.none_bind]
            · have hlen := parseEsc_length he
              simp only [List.length_cons] at h1 h2
              rw [Option.some_bind, Option.some_bind,
                ih (show dc.2.length ≤ f1 by omega)
                  (show dc.2.length ≤ f2 by omega)]
          · simp only [if_neg hq, if_neg hb]
            by_cases hc : c.toNat < 0x20
            · simp [hc]
            · simp only [if_neg hc]
              simp only [List.length_cons] at h1 h2
              rw [ih (show cs1.length ≤ f1 by omega)
                (show cs1.length ≤ f2 by omega)]

theorem escapeChar_length_pos (c : Char) : 1 ≤ (escapeChar c).length := by
  rw [escapeChar]
  split
  · simp
  · split
    · simp
    · split
      · simp
      · split
        · simp
        · split
          · simp
          · split
            · simp
            · split
              · simp
              · split
                · simp
                · simp

theorem escaped_length_ge (cs : List Char) :
    cs.length ≤ ((cs.map escapeChar).flatten).length := by
  induction cs with
  | nil => simp
  | cons c cs ih =>
    simp only [List.map_cons, List.flatten_cons, List.length_append,
      List.length_cons]
    have := escapeChar_length_pos c
    omega

theorem parseStrBody_escape (cs : List Char) : ∀ (rest : List Char)
    (fuel : Nat), cs.length + 1 ≤ fuel →
    parseStrBody fuel ((cs.map escapeChar).flatten ++ '"' :: rest)
      = some (cs, rest) := by
  induction cs with
  | nil =>
    intro rest fuel hf
    obtain ⟨f, rfl⟩ : ∃ f, fuel = f + 1 := ⟨fuel - 1, by omega⟩
    simp [parseStrBody]
  | cons c cs ih =>
    intro rest fuel hf
    obtain ⟨f, rfl⟩ : ∃ f, fuel = f + 1 := ⟨fuel - 1, by omega⟩
    simp only [List.length_cons] at hf
    have hrec := ih rest f (by omega)
    simp only [List.map_cons, List.flatten_cons, List.append_assoc]
    by_cases h1 : c = '"'
    · subst h1
      simp [escapeChar, parseStrBody, parseEsc, shortEscape, hrec]
    · by_cases h2 : c = '\\'
      · subst h2
        simp [escapeChar, parseStrBody, parseEsc, shortEscape, hrec]
      · by_cases h3 : c = '\x08'
        · subst h3
          simp [escapeChar, parseStrBody, parseEsc, shortEscape, hrec]
        · by_cases h4 : c = '\x09'
          · subst h4
            simp [escapeChar, parseStrBody, parseEsc, shortEscape, hrec]
          · by_cases h5 : c = '\x0a'
            · subst h5
              simp [escapeChar, parseStrBody, parseEsc, shortEscape, hrec]
            · by_cases h6 : c = '\x0c'
              · subst h6
                simp [escapeChar, parseStrBody, parseEsc, shortEscape, hrec]
              · by_cases h7 : c = '\x0d'
                · subst h7
                  simp [escapeChar, parseStrBody, parseEsc, shortEscape, hrec]
                · by_cases h8 : c.toNat < 0x20
                  · rw [escapeChar, if_neg h1, if_neg h2, if_neg h3, if_neg h4,
                      if_neg h5, if_neg h6, if_neg h7, if_pos h8]
                    have hhi := @hexVal_hexDigit (c.toNat / 16) (by omega)
                    have hlo := @hexVal_hexDigit (c.toNat % 16) (by omega)
                    have h0 : hexVal '0' = some 0 := rfl
                    have hval : ((0 * 16 + 0) * 16 + c.toNat / 16) * 16
                        + c.toNat % 16 = c.toNat := by omega
                    simp only [List.cons_append, List.nil_append, parseStrBody,
                      parseEsc, parseEscU, reduceIte, h0, hhi, hlo,
                      Option.some_bind, hval]
                    rw [if_pos (Or.inl (by omega) : c.toNat.isValidChar)]
                    simp [hrec, Char.ofNat_toNat]
                  · rw [escapeChar, if_neg h1, if_neg h2, if_neg h3, if_neg h4,
                      if_neg h5, if_neg h6, if_neg h7, if_neg h8]
                    simp only [List.cons_append, List.nil_append, parseStrBody,
                      if_neg h1, if_neg h2, if_neg h8, hrec, Option.map_some']

theorem parseStringBody_escape (cs : List Char) (rest : List Char) :
    parseStringBody ((cs.map escapeChar).flatten ++ '"' :: rest)
      = some (cs, rest) := by
  rw [parseStringBody]
  apply parseStrBody_escape
  have := escaped_length_ge cs
  simp only [List.length_append, List.length_cons]
  omega

theorem string_mk_data (s : String) : String.mk s.data = s := rfl

theorem char_eq_iff_toNat {c d : Char} : c = d ↔ c.toNat = d.toNat :=
  ⟨fun h => congrArg Char.toNat h, fun h => Char.ext (UInt32.toNat.inj h)⟩

theorem skipWs_cons {c : Char} (h : isWs c = false) (cs : List Char) :
    skipWs (c :: cs) = c :: cs := by
  simp [skipWs, h]

theorem isWs_false {c : Char}
    (h : ¬ (c.toNat = 32 ∨ c.toNat = 9 ∨ c.toNat = 10 ∨ c.toNat = 13)) :
    isWs c = false := by
  simp only [isWs, Bool.or_eq_false_iff, decide_eq_false_iff_not]
  refine ⟨⟨⟨?_, ?_⟩, ?_⟩, ?_⟩
  · intro hc
    exact h (Or.inl (by rw [hc]; decide))
  · intro hc
    exact h (Or.inr (Or.inl (by rw [hc]; decide)))
  · intro hc
    exact h (Or.inr (Or.inr (Or.inl (by rw [hc]; decide))))
  · intro hc
    exact h (Or.inr (Or.inr (Or.inr (by rw [hc]; decide))))

theorem numHead_conds {c : Char} (h : c = '-' ∨ c.isDigit = true) :
    isWs c = false ∧ c ≠ '\x7b' ∧ c ≠ '[' ∧ c ≠ '"' ∧ c ≠ 't' ∧ c ≠ 'f'
      ∧ c ≠ 'n' ∧ c ≠ ']' ∧ c ≠ '\x7d' := by
  have hn : c.toNat = 45 ∨ (48 ≤ c.toNat ∧ c.toNat ≤ 57) := by
    rcases h with rfl | h
    · left
      rfl
    · right
      exact isDigit_iff.mp h
  refine ⟨isWs_false (by omega), ?_, ?_, ?_, ?_, ?_, ?_, ?_, ?_⟩
  · apply char_ne_of_toNat_ne
    rw [show ('\x7b').toNat = 123 from rfl]
    omega
  · apply char_ne_of_toNat_ne
    rw [show ('[').toNat = 91 from rfl]
    omega
  · apply char_ne_of_toNat_ne
    rw [show ('"').toNat = 34 from rfl]
    omega
  · apply char_ne_of_toNat_ne
    rw [show ('t').toNat = 116 from rfl]
    omega
  · apply char_ne_of_toNat_ne
    rw [show ('f').toNat = 102 from rfl]
    omega
  · apply char_ne_of_toNat_ne
    rw [show ('n').toNat = 110 from rfl]
    omega
  · apply char_ne_of_toNat_ne
    rw [show (']').toNat = 93 from rfl]
    omega
  · apply char_ne_of_toNat_ne
    rw [show ('\x7d').toNat = 125 from rfl]
    omega

theorem dumpsV_head (v : Value) : ∃ c t, dumpsV v = c :: t ∧ isWs c = false
    ∧ c ≠ ']' ∧ c ≠ '\x7d' := by
  cases v with
  | str s =>
    exact ⟨'"', escapeString s ++ ['"'], rfl, by decide, by decide, by decide⟩
  | int n =>
    by_cases hneg : n < 0
    · refine ⟨'-', natDigits (-n).toNat, ?_, by decide, by decide, by decide⟩
      rw [dumpsV, intChars, if_pos hneg]
    · obtain ⟨c, t, hct⟩ :=
        List.exists_cons_of_ne_nil (natDigits_ne_nil n.toNat)
      have hcd : c.isDigit = true := natDigits_all_digits c (by rw [hct]; simp)
      obtain ⟨hw, -, -, -, -, -, -, hr, hb⟩ := numHead_conds (Or.inr hcd)
      refine ⟨c, t, ?_, hw, hr, hb⟩
      rw [dumpsV, intChars, if_neg hneg, hct]
  | bool b =>
    cases b
    · exact ⟨'f', ['a', 'l', 's', 'e'], rfl, by decide, by decide, by decide⟩
    · exact ⟨'t', ['r', 'u', 'e'], rfl, by decide, by decide, by decide⟩
  | null => exact ⟨'n', ['u', 'l', 'l'], rfl, by decide, by decide, by decide⟩
  | list xs =>
    cases xs with
    | nil => exact ⟨'[', [']'], rfl, by decide, by decide, by decide⟩
    | cons x xs =>
      exact ⟨'[', dumpsV x ++ dumpsL xs ++ [']'], rfl, by decide, by decide,
        by decide⟩
  | dict kvs =>
    cases kvs with
    | nil => exact ⟨'\x7b', ['\x7d'], rfl, by decide, by decide, by decide⟩
    | cons kv kvs =>
      exact ⟨'\x7b', '"' :: (escapeString kv.1 ++ ['"', ':', ' '])
        ++ dumpsV kv.2 ++ dumpsKV kvs ++ ['\x7d'], rfl, by decide, by decide,
        by decide⟩

theorem dictSet_append_of_not_mem {kvs : List (String × Value)} {k : String}
    (h : ¬ k ∈ kvs.map Prod.fst) (v : Value) :
    dictSet kvs k v = kvs ++ [(k, v)] := by
  induction kvs with
  | nil => rfl
  | cons kv rest ih =>
    simp only [List.map_cons, List.mem_cons, not_or] at h
    rw [show kv = (kv.1, kv.2) from rfl, dictSet,
      if_neg (fun he => h.1 he.symm)]
    rw [ih h.2]
    simp

theorem foldl_dictSet_append {ms : List (String × Value)} :
    ∀ acc, (∀ k ∈ ms.map Prod.fst, ¬ k ∈ acc.map Prod.fst) →
    (ms.map Prod.fst).Nodup →
    ms.foldl (fun a kv => dictSet a kv.1 kv.2) acc = acc ++ ms := by
  induction ms with
  | nil =>
    intro acc _ _
    simp
  | cons kv rest ih =>
    intro acc hfresh hnd
    simp only [List.map_cons, List.nodup_cons] at hnd
    rw [List.foldl_cons,
      dictSet_append_of_not_mem (hfresh kv.1 (by simp)) kv.2,
      ih (acc ++ [(kv.1, kv.2)]) ?_ hnd.2]
    · simp
    · intro k hk
      simp only [List.map_append, List.mem_append]
      rintro (hka | hk1)
      · exact hfresh k (by simp [hk]) hka
      · simp only [List.map_cons, List.map_nil, List.mem_singleton] at hk1
        subst hk1
        exact hnd.1 hk

theorem fromMembers_self {ms : List (String × Value)}
    (h : (ms.map Prod.fst).Nodup) : fromMembers ms = ms := by
  rw [fromMembers, foldl_dictSet_append [] (by simp) h]
  simp

theorem weightL_cons (x : Value) (xs : List Value) :
    weightL (x :: xs) = weightV x + weightL xs := rfl

theorem weightKV_cons (kv : String × Value) (kvs : List (String × Value)) :
    weightKV (kv :: kvs) = weightV kv.2 + weightKV kvs := rfl

theorem weightV_list (xs : List Value) : weightV (.list xs) = weightL xs + 1 :=
  rfl

theorem weightV_dict (kvs : List (String × Value)) :
    weightV (.dict kvs) = weightKV kvs + 1 := rfl

theorem nodupKeysL_cons (x : Value) (xs : List Value) :
    nodupKeysL (x :: xs) = (nodupKeysV x && nodupKeysL xs) := rfl

theorem nodupKeysKV_cons (kv : String × Value) (kvs : List (String × Value)) :
    nodupKeysKV (kv :: kvs) = (nodupKeysV kv.2 && nodupKeysKV kvs) := rfl

theorem nodupKeysV_list (xs : List Value) :
    nodupKeysV (.list xs) = nodupKeysL xs := rfl

theorem nodupKeysV_dict (kvs : List (String × Value)) :
    nodupKeysV (.dict kvs)
      = (decide ((kvs.map Prod.fst).Nodup) && nodupKeysKV kvs) := rfl

theorem skipWs_cons_space (cs : List Char) : skipWs (' ' :: cs) = skipWs cs := by
  simp [skipWs, isWs]

theorem parseVal_cons_space (fuel : Nat) (cs : List Char) :
    parseVal fuel (' ' :: cs) = parseVal fuel cs := by
  cases fuel with
  | zero => rfl
  | succ f =>
    simp only [parseVal, skipWs_cons_space]

theorem parseElems_cons_space (fuel : Nat) (cs : List Char) :
    parseElems fuel (' ' :: cs) = parseElems fuel cs := by
  cases fuel with
  | zero => rfl
  | succ f =>
    simp only [parseElems, parseVal_cons_space]

theorem parseMembs_cons_space (fuel : Nat) (cs : List Char) :
    parseMembs fuel (' ' :: cs) = parseMembs fuel cs := by
  cases fuel with
  | zero => rfl
  | succ f =>
    simp only [parseMembs, skipWs_cons_space]

theorem intChars_head (n : Int) :
    ∃ c t, intChars n = c :: t ∧ (c = '-' ∨ c.isDigit = true) := by
  by_cases hneg : n < 0
  · exact ⟨'-', natDigits (-n).toNat, by rw [intChars, if_pos hneg], Or.inl rfl⟩
  · obtain ⟨c, t, hct⟩ := List.exists_cons_of_ne_nil (natDigits_ne_nil n.toNat)
    exact ⟨c, t, by rw [intChars, if_neg hneg, hct],
      Or.inr (natDigits_all_digits c (by rw [hct]; simp))⟩


theorem parse_dumps : ∀ fuel : Nat,
    (∀ v (rest : List Char), nodupKeysV v = true → 2 * weightV v ≤ fuel + 1 →
      headNotDigit rest = true →
      parseVal fuel (dumpsV v ++ rest) = some (v, rest)) ∧
    (∀ x xs (rest : List Char), nodupKeysL (x :: xs) = true →
      2 * weightL (x :: xs) ≤ fuel →
      parseElems fuel (dumpsV x ++ (dumpsL xs ++ ']' :: rest))
        = some (x :: xs, rest)) ∧
    (∀ k v ms (rest : List Char), nodupKeysKV ((k, v) :: ms) = true →
      2 * weightKV ((k, v) :: ms) ≤ fuel →
      parseMembs fuel ('"' :: (escapeString k
          ++ '"' :: ':' :: ' ' :: (dumpsV v ++ (dumpsKV ms ++ '\x7d' :: rest))))
        = some ((k, v) :: ms, rest)) := by
  intro fuel
  induction fuel with
  | zero =>
    refine ⟨?_, ?_, ?_⟩
    · intro v rest _ hw _
      have h1 := weightV_pos v
      exact absurd hw (by omega)
    · intro x xs rest _ hw
      rw [weightL_cons] at hw
      have h1 := weightV_pos x
      exact absurd hw (by omega)
    · intro k v ms rest _ hw
      simp only [weightKV_cons] at hw
      have h1 := weightV_pos v
      exact absurd hw (by omega)
  | succ f ih =>
    obtain ⟨ihV, ihE, ihM⟩ := ih
    refine ⟨?_, ?_, ?_⟩
    · intro v rest hnd hw hrest
      cases v with
      | str s =>
        rw [show dumpsV (.str s) = '"' :: (escapeString s ++ ['"']) from rfl]
        simp only [List.cons_append, List.append_assoc, List.nil_append]
        rw [parseVal, skipWs_cons (by decide)]
        simp [show escapeString s = (s.data.map escapeChar).flatten from rfl,
          parseStringBody_escape s.data rest, string_mk_data]
      | int n =>
        obtain ⟨c, t, hct, hc⟩ := intChars_head n
        obtain ⟨hw2, hb1, hb2, hb3, hb4, hb5, hb6, -, -⟩ := numHead_conds hc
        rw [show dumpsV (.int n) = intChars n from rfl, hct, List.cons_append,
          parseVal, skipWs_cons hw2]
        simp only [if_neg hb1, if_neg hb2, if_neg hb3, if_neg hb4, if_neg hb5,
          if_neg hb6]
        rw [← List.cons_append, ← hct, parseNumber_intChars hrest]
      | bool b =>
        cases b
        · rw [show dumpsV (.bool false) ++ rest
            = 'f' :: 'a' :: 'l' :: 's' :: 'e' :: rest from rfl,
            parseVal, skipWs_cons (by decide)]
          simp
        · rw [show dumpsV (.bool true) ++ rest
            = 't' :: 'r' :: 'u' :: 'e' :: rest from rfl,
            parseVal, skipWs_cons (by decide)]
          simp
      | null =>
        rw [show dumpsV .null ++ rest = 'n' :: 'u' :: 'l' :: 'l' :: rest
          from rfl, parseVal, skipWs_cons (by decide)]
        simp
      | list xs =>
        cases xs with
        | nil =>
          rw [show dumpsV (.list []) ++ rest = '[' :: ']' :: rest from rfl,
            parseVal, skipWs_cons (by decide)]
          simp [skipWs_cons (show isWs ']' = false by decide)]
        | cons x xs =>
          rw [show dumpsV (.list (x :: xs))
            = '[' :: (dumpsV x ++ dumpsL xs ++ [']']) from rfl]
          simp only [List.cons_append, List.append_assoc, List.nil_append]
          rw [parseVal, skipWs_cons (by decide)]
          simp only [Char.reduceEq, reduceIte]
          rw [nodupKeysV_list] at hnd
          rw [weightV_list, weightL_cons] at hw
          have hE := ihE x xs rest hnd (by rw [weightL_cons]; omega)
          obtain ⟨c2, t2, hx, hw2, hr2, hb2⟩ := dumpsV_head x
          rw [hx, List.cons_append] at hE ⊢
          rw [skipWs_cons hw2]
          simp [hr2, hE]
      | dict kvs =>
        cases kvs with
        | nil =>
          rw [show dumpsV (.dict []) ++ rest = '\x7b' :: '\x7d' :: rest
            from rfl, parseVal, skipWs_cons (by decide)]
          simp [skipWs_cons (show isWs '\x7d' = false by decide),
            show fromMembers [] = [] from rfl]
        | cons kv kvs =>
          obtain ⟨k, v⟩ := kv
          rw [show dumpsV (.dict ((k, v) :: kvs))
            = '\x7b' :: ('"' :: (escapeString k ++ ['"', ':', ' '])
              ++ dumpsV v ++ dumpsKV kvs ++ ['\x7d']) from rfl]
          simp only [List.cons_append, List.append_assoc, List.nil_append]
          rw [parseVal, skipWs_cons (by decide)]
          simp only [Char.reduceEq, reduceIte]
          rw [skipWs_cons (by decide)]
          simp only [Char.reduceEq, reduceIte]
          simp only [nodupKeysV_dict, Bool.and_eq_true, decide_eq_true_eq]
            at hnd
          rw [weightV_dict] at hw
          have hM := ihM k v kvs rest hnd.2 (by omega)
          simp [hM, fromMembers_self hnd.1]
    · intro x xs rest hnd hw
      rw [nodupKeysL_cons, Bool.and_eq_true] at hnd
      rw [weightL_cons] at hw
      have hrest2 : headNotDigit (dumpsL xs ++ ']' :: rest) = true := by
        cases xs with
        | nil => rfl
        | cons y ys => rfl
      rw [parseElems, ihV x (dumpsL xs ++ ']' :: rest) hnd.1 (by omega) hrest2,
        Option.some_bind]
      cases xs with
      | nil =>
        rw [show dumpsL ([] : List Value) = [] from rfl, List.nil_append,
          skipWs_cons (by decide)]
        simp
      | cons y ys =>
        rw [show dumpsL (y :: ys)
          = ',' :: ' ' :: (dumpsV y ++ dumpsL ys) from rfl]
        simp only [List.cons_append, List.append_assoc]
        rw [skipWs_cons (by decide)]
        have hE := ihE y ys rest (by rw [nodupKeysL_cons]; exact hnd.2)
          (by have hv := weightV_pos x; omega)
        simp [parseElems_cons_space, hE]
    · intro k v ms rest hnd hw
      simp only [nodupKeysKV_cons, Bool.and_eq_true] at hnd
      simp only [weightKV_cons] at hw
      rw [parseMembs, skipWs_cons (by decide)]
      simp only [Char.reduceEq, reduceIte]
      rw [show escapeString k = (k.data.map escapeChar).flatten from rfl,
        parseStringBody_escape k.data
          (':' :: ' ' :: (dumpsV v ++ (dumpsKV ms ++ '\x7d' :: rest))),
        Option.some_bind, skipWs_cons (by decide)]
      simp only [Char.reduceEq, reduceIte]
      have hrest2 : headNotDigit (dumpsKV ms ++ '\x7d' :: rest) = true := by
        cases ms with
        | nil => rfl
        | cons m ms2 => rfl
      rw [parseVal_cons_space,
        ihV v (dumpsKV ms ++ '\x7d' :: rest) hnd.1 (by omega) hrest2,
        Option.some_bind]
      cases ms with
      | nil =>
        rw [show dumpsKV ([] : List (String × Value)) = [] from rfl,
          List.nil_append, skipWs_cons (by decide)]
        simp [string_mk_data]
      | cons m ms2 =>
        obtain ⟨k2, v2⟩ := m
        rw [show dumpsKV ((k2, v2) :: ms2) = ',' :: ' ' :: ('"'
          :: (escapeString k2 ++ ['"', ':', ' '])
          ++ dumpsV v2 ++ dumpsKV ms2) from rfl]
        simp only [List.cons_append, List.append_assoc, List.nil_append]
        rw [skipWs_cons (by decide)]
        have hM := ihM k2 v2 ms2 rest
          (by simp only [nodupKeysKV_cons]; exact hnd.2)
          (by have hv := weightV_pos v; omega)
        simp [parseMembs_cons_space, hM, string_mk_data]


theorem skipWs_length (cs : List Char) : (skipWs cs).length ≤ cs.length := by
  induction cs with
  | nil => simp [skipWs]
  | cons c cs ih =>
    rw [skipWs]
    by_cases h : isWs c = true
    · rw [if_pos h]
      simp only [List.length_cons]
      omega
    · rw [if_neg h]

theorem skipWs_cons_length {cs cs1 : List Char} {c : Char}
    (h : skipWs cs = c :: cs1) : cs1.length + 1 ≤ cs.length := by
  have := skipWs_length cs
  rw [h] at this
  simp only [List.length_cons] at this
  omega

theorem takeDigits_length {cs : List Char} : ∀ {acc n rest},
    takeDigits acc cs = (n, rest) → rest.length ≤ cs.length := by
  induction cs with
  | nil =>
    intro acc n rest h
    rw [takeDigits] at h
    cases h
    simp
  | cons c cs ih =>
    intro acc n rest h
    rw [takeDigits] at h
    by_cases hc : c.isDigit = true
    · rw [if_pos hc] at h
      have := ih h
      simp only [List.length_cons]
      omega
    · rw [if_neg hc] at h
      cases h
      simp

theorem parseNat_consume {cs rest : List Char} {n : Nat}
    (h : parseNat cs = some (n, rest)) : rest.length + 1 ≤ cs.length := by
  match cs with
  | [] => exact Option.noConfusion h
  | c :: cs1 =>
    rw [parseNat] at h
    by_cases h0 : c = '0'
    · rw [if_pos h0] at h
      rw [Option.some.injEq, Prod.mk.injEq] at h
      rcases h with ⟨-, rfl⟩
      simp
    · rw [if_neg h0] at h
      by_cases hd : c.isDigit = true
      · rw [if_pos hd] at h
        rw [Option.some.injEq] at h
        have h2 : takeDigits (c.toNat - 48) cs1 = (n, rest) := by
          rw [← h]
        have := takeDigits_length h2
        simp only [List.length_cons]
        omega
      · rw [if_neg hd] at h
        exact Option.noConfusion h

theorem parseNumber_consume {cs rest : List Char} {v : Value}
    (h : parseNumber cs = some (v, rest)) :
    weightV v + rest.length ≤ cs.length := by
  match cs with
  | [] => exact Option.noConfusion h
  | c :: cs1 =>
    rw [parseNumber] at h
    by_cases hm : c = '-'
    · rw [if_pos hm] at h
      rcases hn : parseNat cs1 with _ | ⟨n, rest2⟩ <;> rw [hn] at h
      · exact Option.noConfusion h
      · rw [Option.some.injEq, Prod.mk.injEq] at h
        rcases h with ⟨rfl, rfl⟩
        have := parseNat_consume hn
        rw [show weightV (.int (-(n : Int))) = 1 from rfl]
        simp only [List.length_cons]
        omega
    · rw [if_neg hm] at h
      rcases hn : parseNat (c :: cs1) with _ | ⟨n, rest2⟩ <;> rw [hn] at h
      · exact Option.noConfusion h
      · rw [Option.some.injEq, Prod.mk.injEq] at h
        rcases h with ⟨rfl, rfl⟩
        have := parseNat_consume hn
        rw [show weightV (.int (n : Int)) = 1 from rfl]
        omega

theorem parseStrBody_consume : ∀ {fuel : Nat} {cs content rest : List Char},
    parseStrBody fuel cs = some (content, rest) →
    content.length + rest.length + 1 ≤ cs.length := by
  intro fuel
  induction fuel with
  | zero =>
    intro cs content rest h
    exact Option.noConfusion h
  | succ f ih =>
    intro cs content rest h
    match cs with
    | [] => exact Option.noConfusion h
    | c :: cs1 =>
      rw [parseStrBody] at h
      by_cases hq : c = '"'
      · rw [if_pos hq] at h
        rw [Option.some.injEq, Prod.mk.injEq] at h
        rcases h with ⟨rfl, rfl⟩
        simp
      · rw [if_neg hq] at h
        by_cases hb : c = '\\'
        · rw [if_pos hb] at h
          rcases he : parseEsc cs1 with _ | dc <;> rw [he] at h
          · exact Option.noConfusion h
          · rw [Option.some_bind] at h
            rcases hs : parseStrBody f dc.2 with _ | p <;> rw [hs] at h
            · exact Option.noConfusion h
            · rw [Option.map_some', Option.some.injEq, Prod.mk.injEq] at h
              rcases h with ⟨rfl, rfl⟩
              have h1 := ih hs
              have h2 := parseEsc_length he
              simp only [List.length_cons]
              omega
        · rw [if_neg hb] at h
          by_cases hc : c.toNat < 0x20
          · rw [if_pos hc] at h
            exact Option.noConfusion h
          · rw [if_neg hc] at h
            rcases hs : parseStrBody f cs1 with _ | p <;> rw [hs] at h
            · exact Option.noConfusion h
            · rw [Option.map_some', Option.some.injEq, Prod.mk.injEq] at h
              rcases h with ⟨rfl, rfl⟩
              have h1 := ih hs
              simp only [List.length_cons]
              omega

theorem parseStringBody_consume {cs content rest : List Char}
    (h : parseStringBody cs = some (content, rest)) :
    content.length + rest.length + 1 ≤ cs.length :=
  parseStrBody_consume h

theorem dictSet_weight (kvs : List (String × Value)) (k : String) (v : Value) :
    weightKV (dictSet kvs k v) ≤ weightKV kvs + weightV v := by
  induction kvs with
  | nil =>
    rw [show dictSet [] k v = [(k, v)] from rfl]
    simp [weightKV_cons, weightKV]
  | cons kv rest ih =>
    rw [show kv = (kv.1, kv.2) from rfl, dictSet]
    by_cases h : kv.1 = k
    · rw [if_pos h]
      simp only [weightKV_cons]
      have := weightV_pos kv.2
      omega
    · rw [if_neg h]
      simp only [weightKV_cons]
      omega

theorem fromMembers_weight (ms : List (String × Value)) :
    weightKV (fromMembers ms) ≤ weightKV ms := by
  have gen : ∀ (l : List (String × Value)) (acc : List (String × Value)),
      weightKV (l.foldl (fun a kv => dictSet a kv.1 kv.2) acc)
        ≤ weightKV acc + weightKV l := by
    intro l
    induction l with
    | nil =>
      intro acc
      simp [weightKV]
    | cons kv rest ih =>
      intro acc
      rw [List.foldl_cons]
      calc weightKV (rest.foldl (fun a kv => dictSet a kv.1 kv.2)
              (dictSet acc kv.1 kv.2))
          ≤ weightKV (dictSet acc kv.1 kv.2) + weightKV rest := ih _
        _ ≤ weightKV acc + weightV kv.2 + weightKV rest := by
              have := dictSet_weight acc kv.1 kv.2
              omega
        _ = weightKV acc + weightKV (kv :: rest) := by
              rw [weightKV_cons]
              omega
  have := gen ms []
  simpa [weightKV] using this

theorem parse_consume : ∀ fuel : Nat,
    (∀ cs v rest, parseVal fuel cs = some (v, rest) →
      weightV v + rest.length ≤ cs.length) ∧
    (∀ cs xs rest, parseElems fuel cs = some (xs, rest) →
      weightL xs + rest.length + 1 ≤ cs.length) ∧
    (∀ cs ms rest, parseMembs fuel cs = some (ms, rest) →
      weightKV ms + rest.length + 1 ≤ cs.length) := by
  intro fuel
  induction fuel with
  | zero =>
    refine ⟨?_, ?_, ?_⟩ <;> exact fun cs a rest h => Option.noConfusion h
  | succ f ih =>
    obtain ⟨ihV, ihE, ihM⟩ := ih
    refine ⟨?_, ?_, ?_⟩
    · intro cs v rest h
      rw [parseVal] at h
      rcases hsw : skipWs cs with _ | ⟨c, cs1⟩ <;> rw [hsw] at h <;>
        simp only [] at h
      · exact Option.noConfusion h
      have hlen := skipWs_cons_length hsw
      by_cases h1 : c = '\x7b'
      · rw [if_pos h1] at h
        rcases hsw2 : skipWs cs1 with _ | ⟨c2, cs2⟩ <;> rw [hsw2] at h <;>
          simp only [] at h
        · exact Option.noConfusion h
        have hlen2 := skipWs_cons_length hsw2
        by_cases h2 : c2 = '\x7d'
        · rw [if_pos h2] at h
          rw [Option.some.injEq, Prod.mk.injEq] at h
          rcases h with ⟨rfl, rfl⟩
          rw [show weightV (.dict []) = 1 from rfl]
          omega
        · rw [if_neg h2] at h
          rcases hm : parseMembs f (c2 :: cs2) with _ | p <;> rw [hm] at h
          · exact Option.noConfusion h
          · rw [Option.map_some', Option.some.injEq, Prod.mk.injEq] at h
            rcases h with ⟨rfl, rfl⟩
            have hc := ihM _ _ _ hm
            simp only [List.length_cons] at hc
            rw [weightV_dict]
            have hw := fromMembers_weight p.1
            omega
      · rw [if_neg h1] at h
        by_cases h2 : c = '['
        · rw [if_pos h2] at h
          rcases hsw2 : skipWs cs1 with _ | ⟨c2, cs2⟩ <;> rw [hsw2] at h <;>
            simp only [] at h
          · exact Option.noConfusion h
          have hlen2 := skipWs_cons_length hsw2
          by_cases h3 : c2 = ']'
          · rw [if_pos h3] at h
            rw [Option.some.injEq, Prod.mk.injEq] at h
            rcases h with ⟨rfl, rfl⟩
            rw [show weightV (.list []) = 1 from rfl]
            omega
          · rw [if_neg h3] at h
            rcases he : parseElems f (c2 :: cs2) with _ | p <;> rw [he] at h
            · exact Option.noConfusion h
            · rw [Option.map_some', Option.some.injEq, Prod.mk.injEq] at h
              rcases h with ⟨rfl, rfl⟩
              have hc := ihE _ _ _ he
              simp only [List.length_cons] at hc
              rw [weightV_list]
              omega
        · rw [if_neg h2] at h
          by_cases h3 : c = '"'
          · rw [if_pos h3] at h
            rcases hs : parseStringBody cs1 with _ | p <;> rw [hs] at h
            · exact Option.noConfusion h
            · rw [Option.map_some', Option.some.injEq, Prod.mk.injEq] at h
              rcases h with ⟨rfl, rfl⟩
              have hc := parseStringBody_consume hs
              rw [show weightV (.str (String.mk p.1)) = p.1.length + 1
                from rfl]
              omega
          · rw [if_neg h3] at h
            by_cases h4 : c = 't'
            · rw [if_pos h4] at h
              by_cases h5 : cs1.take 3 = ['r', 'u', 'e']
              · rw [if_pos h5] at h
                rw [Option.some.injEq, Prod.mk.injEq] at h
                rcases h with ⟨rfl, rfl⟩
                have : cs1.length ≥ 3 := by
                  have := congrArg List.length h5
                  simp only [List.length_take, List.length_cons,
                    List.length_nil] at this
                  omega
                rw [show weightV (.bool true) = 1 from rfl]
                simp only [List.length_drop]
                omega
              · rw [if_neg h5] at h
                exact Option.noConfusion h
            · rw [if_neg h4] at h
              by_cases h6 : c = 'f'
              · rw [if_pos h6] at h
                by_cases h7 : cs1.take 4 = ['a', 'l', 's', 'e']
                · rw [if_pos h7] at h
                  rw [Option.some.injEq, Prod.mk.injEq] at h
                  rcases h with ⟨rfl, rfl⟩
                  have : cs1.length ≥ 4 := by
                    have := congrArg List.length h7
                    simp only [List.length_take, List.length_cons,
                      List.length_nil] at this
                    omega
                  rw [show weightV (.bool false) = 1 from rfl]
                  simp only [List.length_drop]
                  omega
                · rw [if_neg h7] at h
                  exact Option.noConfusion h
              · rw [if_neg h6] at h
                by_cases h8 : c = 'n'
                · rw [if_pos h8] at h
                  by_cases h9 : cs1.take 3 = ['u', 'l', 'l']
                  · rw [if_pos h9] at h
                    rw [Option.some.injEq, Prod.mk.injEq] at h
                    rcases h with ⟨rfl, rfl⟩
                    have : cs1.length ≥ 3 := by
                      have := congrArg List.length h9
                      simp only [List.length_take, List.length_cons,
                        List.length_nil] at this
                      omega
                    rw [show weightV .null = 1 from rfl]
                    simp only [List.length_drop]
                    omega
                  · rw [if_neg h9] at h
                    exact Option.noConfusion h
                · rw [if_neg h8] at h
                  have hc := parseNumber_consume h
                  simp only [List.length_cons] at hc
                  omega
    · intro cs xs rest h
      rw [parseElems] at h
      rcases hv : parseVal f cs with _ | vr <;> rw [hv] at h
      · exact Option.noConfusion h
      rw [Option.some_bind] at h
      have hcv := ihV _ _ _ hv
      rcases hsw : skipWs vr.2 with _ | ⟨c, rest1⟩ <;> rw [hsw] at h <;>
        simp only [] at h
      · exact Option.noConfusion h
      have hlen := skipWs_cons_length hsw
      by_cases h1 : c = ','
      · rw [if_pos h1] at h
        rcases he : parseElems f rest1 with _ | p <;> rw [he] at h
        · exact Option.noConfusion h
        · rw [Option.map_some', Option.some.injEq, Prod.mk.injEq] at h
          rcases h with ⟨rfl, rfl⟩
          have hc := ihE _ _ _ he
          rw [weightL_cons]
          omega
      · rw [if_neg h1] at h
        by_cases h2 : c = ']'
        · rw [if_pos h2] at h
          rw [Option.some.injEq, Prod.mk.injEq] at h
          rcases h with ⟨rfl, rfl⟩
          rw [weightL_cons]
          rw [show weightL [] = 0 from rfl]
          omega
        · rw [if_neg h2] at h
          exact Option.noConfusion h
    · intro cs ms rest h
      rw [parseMembs] at h
      rcases hsw : skipWs cs with _ | ⟨c, cs1⟩ <;> rw [hsw] at h <;>
        simp only [] at h
      · exact Option.noConfusion h
      have hlen := skipWs_cons_length hsw
      by_cases h1 : c = '"'
      · rw [if_pos h1] at h
        rcases hs : parseStringBody cs1 with _ | kr <;> rw [hs] at h
        · exact Option.noConfusion h
        rw [Option.some_bind] at h
        have hck := parseStringBody_consume hs
        rcases hsw2 : skipWs kr.2 with _ | ⟨c2, cs2⟩ <;> rw [hsw2] at h <;>
          simp only [] at h
        · exact Option.noConfusion h
        have hlen2 := skipWs_cons_length hsw2
        by_cases h2 : c2 = ':'
        · rw [if_pos h2] at h
          rcases hv : parseVal f cs2 with _ | vr <;> rw [hv] at h
          · exact Option.noConfusion h
          rw [Option.some_bind] at h
          have hcv := ihV _ _ _ hv
          rcases hsw3 : skipWs vr.2 with _ | ⟨c3, rest1⟩ <;> rw [hsw3] at h <;>
            simp only [] at h
          · exact Option.noConfusion h
          have hlen3 := skipWs_cons_length hsw3
          by_cases h3 : c3 = ','
          · rw [if_pos h3] at h
            rcases hm : parseMembs f rest1 with _ | p <;> rw [hm] at h
            · exact Option.noConfusion h
            · rw [Option.map_some', Option.some.injEq, Prod.mk.injEq] at h
              rcases h with ⟨rfl, rfl⟩
              have hc := ihM _ _ _ hm
              simp only [weightKV_cons]
              omega
          · rw [if_neg h3] at h
            by_cases h4 : c3 = '\x7d'
            · rw [if_pos h4] at h
              rw [Option.some.injEq, Prod.mk.injEq] at h
              rcases h with ⟨rfl, rfl⟩
              simp only [weightKV_cons]
              rw [show weightKV [] = 0 from rfl]
              omega
            · rw [if_neg h4] at h
              exact Option.noConfusion h
        · rw [if_neg h2] at h
          exact Option.noConfusion h
      · rw [if_neg h1] at h
        exact Option.noConfusion h


end Json

/-! Theorems: serialize-parse round trip and decode stability. -/

namespace Json

open PBIX

theorem dumpsL_weight_of_pointwise :
    ∀ xs : List Value, (∀ x ∈ xs, weightV x ≤ (dumpsV x).length) →
    weightL xs ≤ (dumpsL xs).length := by
  intro xs h
  induction xs with
  | nil => simp [weightL, dumpsL]
  | cons x xs ih =>
    rw [weightL_cons,
      show dumpsL (x :: xs) = ',' :: ' ' :: (dumpsV x ++ dumpsL xs) from rfl]
    have h1 := h x (by simp)
    have h2 := ih (fun y hy => h y (by simp [hy]))
    simp only [List.length_cons, List.length_append]
    omega

theorem dumpsKV_weight_of_pointwise :
    ∀ kvs : List (String × Value),
    (∀ kv ∈ kvs, weightV kv.2 ≤ (dumpsV kv.2).length) →
    weightKV kvs ≤ (dumpsKV kvs).length := by
  intro kvs h
  induction kvs with
  | nil => simp [weightKV, dumpsKV]
  | cons kv kvs ih =>
    rw [weightKV_cons,
      show dumpsKV (kv :: kvs) = ',' :: ' ' :: ('"'
        :: (escapeString kv.1 ++ ['"', ':', ' '])
        ++ dumpsV kv.2 ++ dumpsKV kvs) from rfl]
    have h1 := h kv (by simp)
    have h2 := ih (fun y hy => h y (by simp [hy]))
    simp only [List.length_cons, List.length_append]
    omega

theorem weightV_le_dumpsV (v : Value) : weightV v ≤ (dumpsV v).length := by
  suffices h : ∀ n, ∀ v : Value, weightV v ≤ n → weightV v ≤ (dumpsV v).length
    from h (weightV v) v (Nat.le_refl _)
  intro n
  induction n using Nat.strong_induction_on with
  | _ n ih =>
    intro v hn
    cases v with
    | str s =>
      rw [show dumpsV (.str s) = '"' :: (escapeString s ++ ['"']) from rfl]
      have h1 := escaped_length_ge s.data
      rw [show weightV (.str s) = s.length + 1 from rfl]
      rw [show s.length = s.data.length from rfl]
      simp only [List.length_cons, List.length_append, List.length_singleton]
      rw [show escapeString s = (s.data.map escapeChar).flatten from rfl]
      omega
    | int m =>
      rw [show weightV (.int m) = 1 from rfl]
      rw [show dumpsV (.int m) = intChars m from rfl]
      obtain ⟨c, t, hct, -⟩ := intChars_head m
      rw [hct]
      simp
    | bool b => cases b <;> simp [dumpsV, weightV]
    | null => simp [dumpsV, weightV]
    | list xs =>
      cases xs with
      | nil => simp [dumpsV, weightV, weightL]
      | cons x xs =>
        rw [show dumpsV (.list (x :: xs))
          = '[' :: (dumpsV x ++ dumpsL xs ++ [']']) from rfl, weightV_list,
          weightL_cons]
        have h1 : weightV x ≤ (dumpsV x).length := by
          refine ih (weightV x) ?_ x (Nat.le_refl _)
          have h2 := weightL_mem (show x ∈ x :: xs by simp)
          rw [weightV_list, weightL_cons] at hn
          omega
        have h2 : weightL xs ≤ (dumpsL xs).length := by
          refine dumpsL_weight_of_pointwise xs ?_
          intro y hy
          refine ih (weightV y) ?_ y (Nat.le_refl _)
          have h3 := weightL_mem hy
          rw [weightV_list, weightL_cons] at hn
          have h4 := weightV_pos x
          omega
        simp only [List.length_cons, List.length_append, List.length_singleton]
        omega
    | dict kvs =>
      cases kvs with
      | nil => simp [dumpsV, weightV, weightKV]
      | cons kv kvs =>
        rw [show dumpsV (.dict (kv :: kvs))
          = '\x7b' :: ('"' :: (escapeString kv.1 ++ ['"', ':', ' '])
            ++ dumpsV kv.2 ++ dumpsKV kvs ++ ['\x7d']) from rfl, weightV_dict,
          weightKV_cons]
        have h1 : weightV kv.2 ≤ (dumpsV kv.2).length := by
          refine ih (weightV kv.2) ?_ kv.2 (Nat.le_refl _)
          have h2 := weightKV_mem (show kv ∈ kv :: kvs by simp)
          rw [weightV_dict, weightKV_cons] at hn
          omega
        have h2 : weightKV kvs ≤ (dumpsKV kvs).length := by
          refine dumpsKV_weight_of_pointwise kvs ?_
          intro y hy
          refine ih (weightV y.2) ?_ y.2 (Nat.le_refl _)
          have h3 := weightKV_mem hy
          rw [weightV_dict, weightKV_cons] at hn
          have h4 := weightV_pos kv.2
          omega
        simp only [List.length_cons, List.length_append, List.length_singleton]
        omega

theorem loads_dumps {v : Value} (h : nodupKeysV v = true) :
    loads (dumps v) = some v := by
  have hlen := weightV_le_dumpsV v
  have hp := (parse_dumps (2 * (dumpsV v).length + 2)).1 v [] h
    (by omega) (by rfl)
  rw [List.append_nil] at hp
  rw [loads]
  rw [show (dumps v).data = dumpsV v from rfl, hp]
  rfl

theorem loads_weight {s : String} {v : Value} (h : loads s = some v) :
    weightV v ≤ s.length := by
  rw [loads] at h
  rcases hp : parseVal (2 * s.data.length + 2) s.data with _ | p <;>
    rw [hp] at h <;> simp only [] at h
  · exact Option.noConfusion h
  · rcases hsw : skipWs p.2 with _ | _ <;> rw [hsw] at h
    · rw [Option.some.injEq] at h
      subst h
      have h1 := (parse_consume (2 * s.data.length + 2)).1 _ _ _ hp
      rw [show s.length = s.data.length from rfl]
      omega
    · exact Option.noConfusion h

end Json

/-! Theorems: the decode recursion (str2json) and its fuel stability. -/

namespace PBIX

theorem str2jsonF_stable : ∀ {f1 : Nat} {v : Value} {f2 : Nat},
    weightV v ≤ f1 → weightV v ≤ f2 → str2jsonF f1 v = str2jsonF f2 v := by
  intro f1
  induction f1 with
  | zero =>
    intro v f2 h1 _
    have := weightV_pos v
    exact absurd h1 (by omega)
  | succ f1 ih =>
    intro v f2 h1 h2
    have hpos := weightV_pos v
    obtain ⟨g, rfl⟩ : ∃ g, f2 = g + 1 := ⟨f2 - 1, by omega⟩
    cases v with
    | str s =>
      rw [str2jsonF, str2jsonF]
      rcases hl : Json.loads s with _ | v2
      · rfl
      · have hw := Json.loads_weight hl
        rw [show weightV (.str s) = s.length + 1 from rfl] at h1 h2
        exact ih (by omega) (by omega)
    | int n => rfl
    | bool b => rfl
    | null => rfl
    | list xs =>
      rw [str2jsonF, str2jsonF]
      rw [Value.list.injEq]
      refine List.map_congr_left ?_
      intro x hx
      have := weightL_mem hx
      rw [Json.weightV_list] at h1 h2
      exact ih (by omega) (by omega)
    | dict kvs =>
      rw [str2jsonF, str2jsonF]
      rw [Value.dict.injEq]
      refine List.map_congr_left ?_
      intro kv hkv
      have := weightKV_mem hkv
      rw [Json.weightV_dict] at h1 h2
      rw [Prod.mk.injEq]
      refine ⟨rfl, ih (by omega) (by omega)⟩

theorem str2json_str_some {s : String} {v : Value}
    (h : Json.loads s = some v) :
    recursive_parser_str2json (.str s) = recursive_parser_str2json v := by
  have hw := Json.loads_weight h
  show str2jsonF (weightV (.str s)) (.str s) = str2jsonF (weightV v) v
  rw [show weightV (.str s) = s.length + 1 from rfl, str2jsonF, h]
  exact str2jsonF_stable (by omega) (Nat.le_refl _)

theorem str2json_str_none {s : String} (h : Json.loads s = none) :
    recursive_parser_str2json (.str s) = .str s := by
  show str2jsonF (weightV (.str s)) (.str s) = .str s
  rw [show weightV (.str s) = s.length + 1 from rfl, str2jsonF, h]

theorem str2json_int (n : Int) :
    recursive_parser_str2json (.int n) = .int n := rfl

theorem str2json_bool (b : Bool) :
    recursive_parser_str2json (.bool b) = .bool b := rfl

theorem str2json_null : recursive_parser_str2json .null = .null := rfl

theorem str2json_list (xs : List Value) :
    recursive_parser_str2json (.list xs)
      = .list (xs.map recursive_parser_str2json) := by
  show str2jsonF (weightV (.list xs)) (.list xs) = _
  rw [show weightV (.list xs) = weightL xs + 1 from rfl, str2jsonF,
    Value.list.injEq]
  refine List.map_congr_left ?_
  intro x hx
  have := weightL_mem hx
  exact str2jsonF_stable (by omega) (Nat.le_refl _)

theorem str2json_dict (kvs : List (String × Value)) :
    recursive_parser_str2json (.dict kvs)
      = .dict (kvs.map (fun kv => (kv.1, recursive_parser_str2json kv.2))) := by
  show str2jsonF (weightV (.dict kvs)) (.dict kvs) = _
  rw [show weightV (.dict kvs) = weightKV kvs + 1 from rfl, str2jsonF,
    Value.dict.injEq]
  refine List.map_congr_left ?_
  intro kv hkv
  have := weightKV_mem hkv
  rw [Prod.mk.injEq]
  exact ⟨rfl, str2jsonF_stable (by omega) (Nat.le_refl _)⟩

theorem json_freeL_map {f : Value → Value} {xs : List Value}
    (h : ∀ x ∈ xs, json_free (f x) = true) :
    json_freeL (xs.map f) = true := by
  induction xs with
  | nil => rfl
  | cons x xs ih =>
    rw [List.map_cons, show json_freeL (f x :: xs.map f)
      = (json_free (f x) && json_freeL (xs.map f)) from rfl]
    rw [h x (by simp), ih (fun y hy => h y (by simp [hy]))]
    rfl

theorem json_freeKV_map {f : Value → Value} {kvs : List (String × Value)}
    (h : ∀ kv ∈ kvs, json_free (f kv.2) = true) :
    json_freeKV (kvs.map (fun kv => (kv.1, f kv.2))) = true := by
  induction kvs with
  | nil => rfl
  | cons kv kvs ih =>
    rw [List.map_cons, show json_freeKV ((kv.1, f kv.2)
      :: kvs.map (fun kv => (kv.1, f kv.2)))
      = (json_free (f kv.2) && json_freeKV
          (kvs.map (fun kv => (kv.1, f kv.2)))) from rfl]
    rw [h kv (by simp), ih (fun y hy => h y (by simp [hy]))]
    rfl

theorem str2json_json_free (v : Value) :
    json_free (recursive_parser_str2json v) = true := by
  suffices h : ∀ n, ∀ v : Value, weightV v ≤ n →
      json_free (recursive_parser_str2json v) = true
    from h (weightV v) v (Nat.le_refl _)
  intro n
  induction n using Nat.strong_induction_on with
  | _ n ih =>
    intro v hn
    have hpos := weightV_pos v
    cases v with
    | str s =>
      rcases hl : Json.loads s with _ | v2
      · rw [str2json_str_none hl]
        rw [show json_free (.str s) = (Json.loads s).isNone from rfl, hl]
        rfl
      · rw [str2json_str_some hl]
        have hw := Json.loads_weight hl
        rw [show weightV (.str s) = s.length + 1 from rfl] at hn
        exact ih (weightV v2) (by omega) v2 (Nat.le_refl _)
    | int m => rfl
    | bool b => rfl
    | null => rfl
    | list xs =>
      rw [str2json_list]
      rw [show json_free (.list (xs.map recursive_parser_str2json))
        = json_freeL (xs.map recursive_parser_str2json) from rfl]
      refine json_freeL_map ?_
      intro x hx
      have := weightL_mem hx
      rw [Json.weightV_list] at hn
      exact ih (weightV x) (by omega) x (Nat.le_refl _)
    | dict kvs =>
      rw [str2json_dict]
      rw [show json_free (.dict (kvs.map
          (fun kv => (kv.1, recursive_parser_str2json kv.2))))
        = json_freeKV (kvs.map
          (fun kv => (kv.1, recursive_parser_str2json kv.2))) from rfl]
      refine json_freeKV_map ?_
      intro kv hkv
      have := weightKV_mem hkv
      rw [Json.weightV_dict] at hn
      exact ih (weightV kv.2) (by omega) kv.2 (Nat.le_refl _)

theorem map_id_of_pointwise {f : Value → Value} :
    ∀ xs : List Value, (∀ x ∈ xs, f x = x) → xs.map f = xs := by
  intro xs h
  induction xs with
  | nil => rfl
  | cons x xs ih =>
    rw [List.map_cons, h x (by simp), ih (fun y hy => h y (by simp [hy]))]

theorem mapKV_id_of_pointwise {f : Value → Value} :
    ∀ kvs : List (String × Value), (∀ kv ∈ kvs, f kv.2 = kv.2) →
    kvs.map (fun kv => (kv.1, f kv.2)) = kvs := by
  intro kvs h
  induction kvs with
  | nil => rfl
  | cons kv kvs ih =>
    rw [List.map_cons, h kv (by simp), ih (fun y hy => h y (by simp [hy]))]

theorem json_freeL_mem : ∀ {xs : List Value} {x : Value},
    json_freeL xs = true → x ∈ xs → json_free x = true := by
  intro xs
  induction xs with
  | nil =>
    intro x _ hx
    cases hx
  | cons y ys ih =>
    intro x hfree hx
    rw [show json_freeL (y :: ys) = (json_free y && json_freeL ys) from rfl,
      Bool.and_eq_true] at hfree
    rcases List.mem_cons.mp hx with rfl | hx2
    · exact hfree.1
    · exact ih hfree.2 hx2

theorem json_freeKV_mem : ∀ {kvs : List (String × Value)} {kv : String × Value},
    json_freeKV kvs = true → kv ∈ kvs → json_free kv.2 = true := by
  intro kvs
  induction kvs with
  | nil =>
    intro kv _ hkv
    cases hkv
  | cons y ys ih =>
    intro kv hfree hkv
    rw [show json_freeKV (y :: ys) = (json_free y.2 && json_freeKV ys)
      from rfl, Bool.and_eq_true] at hfree
    rcases List.mem_cons.mp hkv with rfl | hkv2
    · exact hfree.1
    · exact ih hfree.2 hkv2

theorem str2json_of_json_free : ∀ {v : Value}, json_free v = true →
    recursive_parser_str2json v = v := by
  suffices h : ∀ n, ∀ v : Value, weightV v ≤ n → json_free v = true →
      recursive_parser_str2json v = v
    from fun {v} hv => h (weightV v) v (Nat.le_refl _) hv
  intro n
  induction n using Nat.strong_induction_on with
  | _ n ih =>
    intro v hn hfree
    have hpos := weightV_pos v
    cases v with
    | str s =>
      rw [show json_free (.str s) = (Json.loads s).isNone from rfl] at hfree
      rcases hl : Json.loads s with _ | v2
      · exact str2json_str_none hl
      · rw [hl] at hfree
        simp at hfree
    | int m => rfl
    | bool b => rfl
    | null => rfl
    | list xs =>
      rw [str2json_list, Value.list.injEq]
      refine map_id_of_pointwise xs ?_
      intro x hx
      have h1 := weightL_mem hx
      rw [Json.weightV_list] at hn
      have h2 : json_free x = true :=
        json_freeL_mem (by exact hfree) hx
      exact ih (weightV x) (by omega) x (Nat.le_refl _) h2
    | dict kvs =>
      rw [str2json_dict, Value.dict.injEq]
      refine mapKV_id_of_pointwise kvs ?_
      intro kv hkv
      have h1 := weightKV_mem hkv
      rw [Json.weightV_dict] at hn
      have h2 : json_free kv.2 = true :=
        json_freeKV_mem (by exact hfree) hkv
      exact ih (weightV kv.2) (by omega) kv.2 (Nat.le_refl _) h2

end PBIX

/-! Theorems: the encode recursion (json2str) and dict assignment. -/

namespace Json

open PBIX

theorem lookup_cons (k' k1 : String) (v1 : Value)
    (rest : List (String × Value)) :
    List.lookup k' ((k1, v1) :: rest)
      = if k' = k1 then some v1 else List.lookup k' rest := by
  rw [List.lookup]
  by_cases h : k' = k1
  · rw [if_pos h, show (k' == k1) = true from by simp [h]]
  · rw [if_neg h, show (k' == k1) = false from by simp [h]]

theorem dictSet_lookup_self (kvs : List (String × Value)) (k : String)
    (v : Value) : (dictSet kvs k v).lookup k = some v := by
  induction kvs with
  | nil =>
    rw [show dictSet [] k v = [(k, v)] from rfl, lookup_cons, if_pos rfl]
  | cons kv rest ih =>
    rw [show kv = (kv.1, kv.2) from rfl, dictSet]
    by_cases h : kv.1 = k
    · rw [if_pos h, lookup_cons, if_pos rfl]
    · rw [if_neg h, lookup_cons, if_neg (fun he => h he.symm)]
      exact ih

theorem dictSet_lookup_ne {k' k : String} (h : k' ≠ k)
    (kvs : List (String × Value)) (v : Value) :
    (dictSet kvs k v).lookup k' = kvs.lookup k' := by
  induction kvs with
  | nil =>
    rw [show dictSet [] k v = [(k, v)] from rfl, lookup_cons, if_neg h]
  | cons kv rest ih =>
    rw [show kv = (kv.1, kv.2) from rfl, dictSet]
    by_cases hk : kv.1 = k
    · rw [if_pos hk, lookup_cons, lookup_cons, if_neg h,
        if_neg (fun he => h (he.trans hk))]
    · rw [if_neg hk, lookup_cons, lookup_cons]
      by_cases hk' : k' = kv.1
      · rw [if_pos hk', if_pos hk']
      · rw [if_neg hk', if_neg hk']
        exact ih

theorem dictSet_of_lookup_eq : ∀ {kvs : List (String × Value)} {k : String}
    {v : Value}, kvs.lookup k = some v → dictSet kvs k v = kvs := by
  intro kvs
  induction kvs with
  | nil =>
    intro k v h
    exact Option.noConfusion h
  | cons kv rest ih =>
    intro k v h
    rw [show kv = (kv.1, kv.2) from rfl, dictSet]
    rw [show kv = (kv.1, kv.2) from rfl, lookup_cons] at h
    by_cases hk : kv.1 = k
    · rw [if_pos hk]
      rw [if_pos hk.symm, Option.some.injEq] at h
      rw [hk, h]
    · rw [if_neg hk]
      rw [if_neg (fun he => hk he.symm)] at h
      rw [ih h]

end Json

namespace PBIX

theorem json2str_list_eq (xs : List Value) :
    recursive_parser_json2str (.list xs) = .list (json2strList xs) := rfl

theorem json2str_dict_eq (kvs : List (String × Value)) :
    recursive_parser_json2str (.dict kvs) = .dict (json2strKVs kvs) := rfl

theorem json2strList_cons (x : Value) (xs : List Value) :
    json2strList (x :: xs)
      = recursive_parser_json2str x :: json2strList xs := rfl

theorem json2strKVs_cons (kv : String × Value) (kvs : List (String × Value)) :
    json2strKVs (kv :: kvs)
      = (kv.1,
          if kv.1 ∈ special_parsing_keys then .str (Json.dumps kv.2)
          else recursive_parser_json2str kv.2) :: json2strKVs kvs := rfl

theorem no_special_keysL_mem : ∀ {xs : List Value} {x : Value},
    no_special_keysL xs = true → x ∈ xs → no_special_keys x = true := by
  intro xs
  induction xs with
  | nil =>
    intro x _ hx
    cases hx
  | cons y ys ih =>
    intro x h hx
    rw [show no_special_keysL (y :: ys)
      = (no_special_keys y && no_special_keysL ys) from rfl,
      Bool.and_eq_true] at h
    rcases List.mem_cons.mp hx with rfl | hx2
    · exact h.1
    · exact ih h.2 hx2

theorem no_special_keysKV_mem : ∀ {kvs : List (String × Value)}
    {kv : String × Value}, no_special_keysKV kvs = true → kv ∈ kvs →
    ¬ kv.1 ∈ special_parsing_keys ∧ no_special_keys kv.2 = true := by
  intro kvs
  induction kvs with
  | nil =>
    intro kv _ hkv
    cases hkv
  | cons y ys ih =>
    intro kv h hkv
    rw [show no_special_keysKV (y :: ys)
      = (!(decide (y.1 ∈ special_parsing_keys)) && no_special_keys y.2
          && no_special_keysKV ys) from rfl,
      Bool.and_eq_true, Bool.and_eq_true] at h
    rcases List.mem_cons.mp hkv with rfl | hkv2
    · refine ⟨?_, h.1.2⟩
      have := h.1.1
      simp only [Bool.not_eq_true', decide_eq_false_iff_not] at this
      exact this
    · exact ih h.2 hkv2

theorem json2strList_id {xs : List Value}
    (h : ∀ x ∈ xs, recursive_parser_json2str x = x) : json2strList xs = xs := by
  induction xs with
  | nil => rfl
  | cons x xs ih =>
    rw [json2strList_cons, h x (by simp), ih (fun y hy => h y (by simp [hy]))]

theorem json2strKVs_id {kvs : List (String × Value)}
    (hk : ∀ kv ∈ kvs, ¬ kv.1 ∈ special_parsing_keys)
    (h : ∀ kv ∈ kvs, recursive_parser_json2str kv.2 = kv.2) :
    json2strKVs kvs = kvs := by
  induction kvs with
  | nil => rfl
  | cons kv kvs ih =>
    rw [json2strKVs_cons, if_neg (hk kv (by simp)), h kv (by simp),
      ih (fun y hy => hk y (by simp [hy])) (fun y hy => h y (by simp [hy]))]

theorem json2str_id_of_no_special : ∀ {v : Value},
    no_special_keys v = true → recursive_parser_json2str v = v := by
  suffices h : ∀ n, ∀ v : Value, weightV v ≤ n → no_special_keys v = true →
      recursive_parser_json2str v = v
    from fun {v} hv => h (weightV v) v (Nat.le_refl _) hv
  intro n
  induction n using Nat.strong_induction_on with
  | _ n ih =>
    intro v hn hsp
    cases v with
    | str s => rfl
    | int m => rfl
    | bool b => rfl
    | null => rfl
    | list xs =>
      rw [json2str_list_eq, Value.list.injEq]
      refine json2strList_id ?_
      intro x hx
      have h1 := weightL_mem hx
      rw [Json.weightV_list] at hn
      exact ih (weightV x) (by omega) x (Nat.le_refl _)
        (no_special_keysL_mem (by exact hsp) hx)
    | dict kvs =>
      rw [json2str_dict_eq, Value.dict.injEq]
      have hm : ∀ kv ∈ kvs, ¬ kv.1 ∈ special_parsing_keys
          ∧ no_special_keys kv.2 = true :=
        fun kv hkv => no_special_keysKV_mem (by exact hsp) hkv
      refine json2strKVs_id (fun kv hkv => (hm kv hkv).1) ?_
      intro kv hkv
      have h1 := weightKV_mem hkv
      rw [Json.weightV_dict] at hn
      exact ih (weightV kv.2) (by omega) kv.2 (Nat.le_refl _) (hm kv hkv).2

theorem decode_encode_eq {v : Value} (h1 : no_special_keys v = true)
    (h2 : json_free v = true) (h3 : Json.nodupKeysV v = true) :
    decode (encode v) = v := by
  rw [encode, json2str_id_of_no_special h1, decode,
    str2json_str_some (Json.loads_dumps h3)]
  exact str2json_of_json_free h2

end PBIX

/-! Theorems: section lookup and mutation operations. -/

namespace PBIX

theorem except_bind_ok {α β : Type} (a : α) (f : α → Except PyErr β) :
    (Except.ok a >>= f) = f a := rfl

theorem except_bind_err {α β : Type} (e : PyErr) (f : α → Except PyErr β) :
    ((Except.error e : Except PyErr α) >>= f) = .error e := rfl

theorem pyEqStr_iff {v : Value} {name : String} :
    pyEqStr v name = true ↔ v = .str name := by
  cases v <;> simp [pyEqStr]

theorem sections_well_named_cons (s : Value) (rest : List Value) :
    sections_well_named (s :: rest)
      = ((match s with
          | .dict skvs => (skvs.lookup "displayName").isSome
          | _ => false) && sections_well_named rest) := rfl

theorem find_first_idx_lt : ∀ {l : List Value} {name : String} {i : Nat},
    find_first_idx name l = .ok i → i < l.length := by
  intro l
  induction l with
  | nil =>
    intro name i h
    exact Except.noConfusion h
  | cons s rest ih =>
    intro name i h
    cases s
    case dict kvs =>
      rw [find_first_idx] at h
      rcases hl : kvs.lookup "displayName" with _ | v <;> rw [hl] at h
      · exact Except.noConfusion h
      · simp only [] at h
        by_cases hm : pyEqStr v name = true
        · rw [if_pos hm] at h
          rw [Except.ok.injEq] at h
          subst h
          simp
        · rw [if_neg hm] at h
          rcases hf : find_first_idx name rest with e | j <;> rw [hf] at h
          · exact Except.noConfusion h
          · rw [show Except.map (· + 1) (Except.ok j)
              = (Except.ok (j + 1) : Except PyErr Nat) from rfl] at h
            rw [Except.ok.injEq] at h
            subst h
            have := ih hf
            simp only [List.length_cons]
            omega
    all_goals exact Except.noConfusion h

theorem find_first_idx_getD : ∀ {l : List Value} {name : String} {i : Nat},
    find_first_idx name l = .ok i →
    ∃ skvs, l.getD i .null = .dict skvs
      ∧ skvs.lookup "displayName" = some (.str name) := by
  intro l
  induction l with
  | nil =>
    intro name i h
    exact Except.noConfusion h
  | cons s rest ih =>
    intro name i h
    cases s
    case dict kvs =>
      rw [find_first_idx] at h
      rcases hl : kvs.lookup "displayName" with _ | v <;> rw [hl] at h
      · exact Except.noConfusion h
      · simp only [] at h
        by_cases hm : pyEqStr v name = true
        · rw [if_pos hm] at h
          rw [Except.ok.injEq] at h
          subst h
          refine ⟨kvs, by simp, ?_⟩
          rw [hl, pyEqStr_iff.mp hm]
        · rw [if_neg hm] at h
          rcases hf : find_first_idx name rest with e | j <;> rw [hf] at h
          · exact Except.noConfusion h
          · rw [show Except.map (· + 1) (Except.ok j)
              = (Except.ok (j + 1) : Except PyErr Nat) from rfl] at h
            rw [Except.ok.injEq] at h
            subst h
            simpa using ih hf
    all_goals exact Except.noConfusion h

theorem find_first_idx_not_found : ∀ {l : List Value} {name : String},
    sections_well_named l = true →
    (∀ s ∈ l, section_named s name = false) →
    find_first_idx name l = .error .stopIteration := by
  intro l
  induction l with
  | nil =>
    intro name _ _
    rfl
  | cons s rest ih =>
    intro name hw hn
    rw [sections_well_named_cons, Bool.and_eq_true] at hw
    cases s
    case dict kvs =>
      rw [find_first_idx]
      rcases hl : kvs.lookup "displayName" with _ | v
      · simp only [] at hw
        rw [hl] at hw
        exact absurd hw.1 (by simp)
      · simp only []
        have hs := hn (.dict kvs) (by simp)
        rw [section_named] at hs
        simp only [hl] at hs
        rw [if_neg (by rw [hs]; exact Bool.false_ne_true)]
        rw [ih hw.2 (fun x hx => hn x (by simp [hx]))]
        rfl
    all_goals exact absurd hw.1 (by simp)

theorem get_sections_eq {kvs : List (String × Value)} {l : List Value}
    (hs : kvs.lookup "sections" = some (.list l)) :
    get_sections (.dict kvs) = .ok (kvs, l) := by
  rw [get_sections, hs]

theorem rename_section_spec {kvs : List (String × Value)} {l : List Value}
    {crt_name new_name : String} {i : Nat}
    (hs : kvs.lookup "sections" = some (.list l))
    (hi : find_first_idx crt_name l = .ok i) :
    rename_section (.dict kvs) crt_name new_name
      = .ok (.dict (Json.dictSet kvs "sections"
          (.list (l.set i (set_displayName (l.getD i .null) new_name))))) := by
  rw [rename_section, get_sections_eq hs, except_bind_ok]
  simp only []
  rw [hi, except_bind_ok]

end PBIX

/-! Theorems: ordinals, contiguity and `duplicate_section`. -/

namespace PBIX

theorem getD_append_left {α : Type} {l1 l2 : List α} {i : Nat} (d : α)
    (h : i < l1.length) : (l1 ++ l2).getD i d = l1.getD i d := by
  simp [List.getD_eq_getElem?_getD, List.getElem?_append, h]

theorem getD_append_shift {α : Type} (l1 l2 : List α) (k : Nat) (d : α) :
    (l1 ++ l2).getD (l1.length + k) d = l2.getD k d := by
  simp [List.getD_eq_getElem?_getD, List.getElem?_append]

theorem getD_drop {α : Type} (l : List α) (n m : Nat) (d : α) :
    (l.drop n).getD m d = l.getD (n + m) d := by
  simp [List.getD_eq_getElem?_getD, List.getElem?_drop]

theorem getD_take {α : Type} {l : List α} {i j : Nat} (d : α) (h : i < j) :
    (l.take j).getD i d = l.getD i d := by
  simp [List.getD_eq_getElem?_getD, List.getElem?_take, h]

theorem getD_set_ne {α : Type} {l : List α} {i j : Nat} (d x : α) (h : i ≠ j) :
    (l.set i x).getD j d = l.getD j d := by
  simp [List.getD_eq_getElem?_getD, List.getElem?_set_ne h]

theorem getD_set_self {α : Type} {l : List α} {i : Nat} (d x : α)
    (h : i < l.length) : (l.set i x).getD i d = x := by
  simp [List.getD_eq_getElem?_getD, List.getElem?_set_self, h]

theorem sec_ord_dict {s : Value} {n : Int} (h : sec_ord s = some n) :
    ∃ skvs, s = .dict skvs ∧ skvs.lookup "ordinal" = some (.int n) := by
  cases s
  case dict skvs =>
    rw [sec_ord] at h
    refine ⟨skvs, rfl, ?_⟩
    rcases hl : skvs.lookup "ordinal" with _ | v <;> rw [hl] at h
    · exact Option.noConfusion h
    · cases v
      case int m =>
        simp only [] at h
        rw [Option.some.injEq] at h
        rw [h]
      all_goals exact Option.noConfusion h
  all_goals exact Option.noConfusion h

theorem get_ordinal_of_sec_ord {s : Value} {n : Int} (h : sec_ord s = some n) :
    get_ordinal s = .ok n := by
  obtain ⟨skvs, rfl, hl⟩ := sec_ord_dict h
  rw [get_ordinal, hl]

theorem sec_ord_set_ordinal {skvs : List (String × Value)} (m : Int) :
    sec_ord (set_ordinal (.dict skvs) m) = some m := by
  rw [set_ordinal, sec_ord, Json.dictSet_lookup_self]

theorem sec_ord_set_displayName (s : Value) (n : String) :
    sec_ord (set_displayName s n) = sec_ord s := by
  cases s
  case dict skvs =>
    rw [set_displayName, sec_ord, sec_ord,
      Json.dictSet_lookup_ne (by decide : "ordinal" ≠ "displayName")]
  all_goals rfl

theorem set_displayName_dict (skvs : List (String × Value)) (n : String) :
    set_displayName (.dict skvs) n
      = .dict (Json.dictSet skvs "displayName" (.str n)) := rfl

theorem ordinalsFrom_length : ∀ (l : List Value) (k : Int),
    (ordinalsFrom k l).length = l.length := by
  intro l
  induction l with
  | nil => intro k; rfl
  | cons s rest ih =>
    intro k
    rw [ordinalsFrom]
    simp only [List.length_cons, ih]

theorem ordinalsFrom_getD : ∀ (l : List Value) (k : Int) {i : Nat},
    i < l.length →
    (ordinalsFrom k l).getD i .null = set_ordinal (l.getD i .null) (k + i) := by
  intro l
  induction l with
  | nil =>
    intro k i h
    exact absurd h (by simp)
  | cons s rest ih =>
    intro k i h
    rw [ordinalsFrom]
    cases i with
    | zero => simp
    | succ j =>
      have hj : j < rest.length := by
        simp only [List.length_cons] at h
        omega
      simp only [List.getD_cons_succ]
      rw [ih (k + 1) hj]
      congr 1
      omega

theorem set_ordinals_ok : ∀ {sl : List Value} {i : Int},
    (∀ s ∈ sl, ∃ skvs, s = .dict skvs) →
    set_ordinals i sl = .ok (ordinalsFrom i sl) := by
  intro sl
  induction sl with
  | nil => intro i _; rfl
  | cons s rest ih =>
    intro i hd
    obtain ⟨skvs, rfl⟩ := hd s (by simp)
    rw [set_ordinals]
    rw [ih (fun x hx => hd x (by simp [hx])), except_bind_ok, ordinalsFrom]
    rfl

theorem take_append_cons (t rest : List Value) (x : Value) {n : Nat}
    (ht : t.length = n) : (t ++ x :: rest).take n = t := by
  subst ht
  exact List.take_left t (x :: rest)

theorem drop_append_cons (t rest : List Value) (x : Value) {n : Nat}
    (ht : t.length = n) : (t ++ x :: rest).drop n = x :: rest := by
  subst ht
  exact List.drop_left t (x :: rest)

theorem mem_dict_of_contig {l : List Value}
    (hc : ∀ i, i < l.length → sec_ord (l.getD i .null) = some (i : Int)) :
    ∀ s ∈ l, ∃ skvs, s = .dict skvs := by
  intro s hs
  obtain ⟨i, hi, rfl⟩ := List.mem_iff_getElem.mp hs
  have := hc i hi
  rw [List.getD_eq_getElem l .null hi] at this
  obtain ⟨skvs, heq, _⟩ := sec_ord_dict this
  exact ⟨skvs, heq⟩

end PBIX

namespace PBIX

theorem duplicate_section_spec {kvs : List (String × Value)} {l : List Value}
    {p a : Nat} {d an nn : String}
    (hs : kvs.lookup "sections" = some (.list l))
    (hp : find_first_idx d l = .ok p)
    (ha : find_first_idx an l = .ok a)
    (hc : ∀ i, i < l.length → sec_ord (l.getD i .null) = some (i : Int)) :
    duplicate_section (.dict kvs) d an nn
      = .ok (.dict (Json.dictSet kvs "sections" (.list
          (l.take (a + 1) ++ ordinalsFrom ((a : Int) + 1)
            (set_displayName (l.getD p .null) nn :: l.drop (a + 1)))))) := by
  have hal : a < l.length := find_first_idx_lt ha
  have hpl : p < l.length := find_first_idx_lt hp
  have hordA : sec_ord (l.getD a .null) = some (a : Int) := hc a hal
  have htoNat : ((a : Int) + 1).toNat = a + 1 := by omega
  have hclamp1 : pyClampIndex l.length ((a : Int) + 1) = a + 1 := by
    rw [pyClampIndex, if_neg (by omega), htoNat]
    exact Nat.min_eq_left (by omega)
  have hIns : pyInsert l ((a : Int) + 1) (set_displayName (l.getD p .null) nn)
      = l.take (a + 1) ++ set_displayName (l.getD p .null) nn :: l.drop (a + 1) := by
    rw [pyInsert]
    simp only [hclamp1]
  have htl : (l.take (a + 1)).length = a + 1 := by
    simp [List.length_take]
    omega
  have hlen2 : (l.take (a + 1)
      ++ set_displayName (l.getD p .null) nn :: l.drop (a + 1)).length
      = l.length + 1 := by
    simp [List.length_append, List.length_take, List.length_drop]
    omega
  have hclamp2 : pyClampIndex (l.length + 1) ((a : Int) + 1) = a + 1 := by
    rw [pyClampIndex, if_neg (by omega), htoNat]
    exact Nat.min_eq_left (by omega)
  have hdictDup : ∃ skvs,
      set_displayName (l.getD p .null) nn = .dict skvs := by
    obtain ⟨skvs, heq, _⟩ := sec_ord_dict (hc p hpl)
    rw [heq, set_displayName_dict]
    exact ⟨_, rfl⟩
  have hso : set_ordinals ((a : Int) + 1)
      (set_displayName (l.getD p .null) nn :: l.drop (a + 1))
      = .ok (ordinalsFrom ((a : Int) + 1)
          (set_displayName (l.getD p .null) nn :: l.drop (a + 1))) := by
    refine set_ordinals_ok ?_
    intro s hsm
    rcases List.mem_cons.mp hsm with hh | hm
    · rw [hh]
      exact hdictDup
    · exact mem_dict_of_contig hc s (List.mem_of_mem_drop hm)
  rw [duplicate_section, get_sections_eq hs, except_bind_ok]
  simp only []
  rw [hp, except_bind_ok]
  rw [ha, except_bind_ok, get_ordinal_of_sec_ord hordA, except_bind_ok]
  rw [hIns, hlen2, hclamp2,
    drop_append_cons (l.take (a + 1)) (l.drop (a + 1)) _ htl, hso,
    except_bind_ok,
    take_append_cons (l.take (a + 1)) (l.drop (a + 1)) _ htl]

end PBIX

namespace PBIX

theorem ordinals_contiguous_iff {kvs : List (String × Value)} {l : List Value}
    (hs : kvs.lookup "sections" = some (.list l)) :
    ordinals_contiguous (.dict kvs) = true
      ↔ ∀ i, i < l.length → sec_ord (l.getD i .null) = some (i : Int) := by
  rw [ordinals_contiguous, hs]
  simp [List.all_eq_true, List.mem_range]

theorem get_sections_ok_inv {layout : Value} {kvs : List (String × Value)}
    {l : List Value} (h : get_sections layout = .ok (kvs, l)) :
    layout = .dict kvs ∧ kvs.lookup "sections" = some (.list l) := by
  cases layout
  case dict kvs0 =>
    rw [get_sections] at h
    rcases hsl : kvs0.lookup "sections" with _ | v <;> rw [hsl] at h
    · exact Except.noConfusion h
    · cases v
      case list l0 =>
        simp only [] at h
        rw [Except.ok.injEq, Prod.mk.injEq] at h
        obtain ⟨rfl, rfl⟩ := h
        exact ⟨rfl, hsl⟩
      all_goals exact Except.noConfusion h
  all_goals exact Except.noConfusion h

theorem rename_section_ok_inv {layout : Value} {c n : String} {out : Value}
    (h : rename_section layout c n = .ok out) :
    ∃ kvs l i, layout = .dict kvs ∧ kvs.lookup "sections" = some (.list l)
      ∧ find_first_idx c l = .ok i
      ∧ out = .dict (Json.dictSet kvs "sections"
          (.list (l.set i (set_displayName (l.getD i .null) n)))) := by
  rw [rename_section] at h
  rcases hgs : get_sections layout with e | pr <;> rw [hgs] at h
  · rw [except_bind_err] at h
    exact Except.noConfusion h
  · obtain ⟨kvs, l⟩ := pr
    obtain ⟨rfl, hsl⟩ := get_sections_ok_inv hgs
    rw [except_bind_ok] at h
    simp only [] at h
    rcases hfi : find_first_idx c l with e | i <;> rw [hfi] at h
    · rw [except_bind_err] at h
      exact Except.noConfusion h
    · rw [except_bind_ok, Except.ok.injEq] at h
      exact ⟨kvs, l, i, rfl, hsl, hfi, h.symm⟩

theorem duplicate_section_ok_inv {layout : Value} {d an nn : String} {out : Value}
    (h : duplicate_section layout d an nn = .ok out) :
    ∃ kvs l p a, layout = .dict kvs ∧ kvs.lookup "sections" = some (.list l)
      ∧ find_first_idx d l = .ok p ∧ find_first_idx an l = .ok a := by
  rw [duplicate_section] at h
  rcases hgs : get_sections layout with e | pr <;> rw [hgs] at h
  · rw [except_bind_err] at h
    exact Except.noConfusion h
  · obtain ⟨kvs, l⟩ := pr
    obtain ⟨rfl, hsl⟩ := get_sections_ok_inv hgs
    rw [except_bind_ok] at h
    simp only [] at h
    rcases hp : find_first_idx d l with e | p <;> rw [hp] at h
    · rw [except_bind_err] at h
      exact Except.noConfusion h
    · rw [except_bind_ok] at h
      rcases ha : find_first_idx an l with e | a <;> rw [ha] at h
      · rw [except_bind_err] at h
        exact Except.noConfusion h
      · exact ⟨kvs, l, p, a, rfl, hsl, hp, ha⟩

theorem rename_preserves_contig {layout out : Value} {c n : String}
    (hco : ordinals_contiguous layout = true)
    (h : rename_section layout c n = .ok out) :
    ordinals_contiguous out = true := by
  obtain ⟨kvs, l, i, rfl, hsl, hi, rfl⟩ := rename_section_ok_inv h
  have hc := (ordinals_contiguous_iff hsl).mp hco
  have hil : i < l.length := find_first_idx_lt hi
  refine (ordinals_contiguous_iff (Json.dictSet_lookup_self kvs "sections" _)).mpr ?_
  intro j hj
  rw [List.length_set] at hj
  by_cases hij : i = j
  · subst hij
    rw [getD_set_self _ _ hil, sec_ord_set_displayName]
    exact hc i hil
  · rw [getD_set_ne _ _ hij]
    exact hc j hj

theorem duplicate_preserves_contig {layout out : Value} {d an nn : String}
    (hco : ordinals_contiguous layout = true)
    (h : duplicate_section layout d an nn = .ok out) :
    ordinals_contiguous out = true := by
  obtain ⟨kvs, l, p, a, rfl, hsl, hp, ha⟩ := duplicate_section_ok_inv h
  have hc := (ordinals_contiguous_iff hsl).mp hco
  rw [duplicate_section_spec hsl hp ha hc, Except.ok.injEq] at h
  subst h
  have hal : a < l.length := find_first_idx_lt ha
  have hpl : p < l.length := find_first_idx_lt hp
  have htl : (l.take (a + 1)).length = a + 1 := by
    simp [List.length_take]
    omega
  refine (ordinals_contiguous_iff (Json.dictSet_lookup_self kvs "sections" _)).mpr ?_
  intro j hj
  rw [List.length_append, htl, ordinalsFrom_length, List.length_cons,
    List.length_drop] at hj
  by_cases hja : j < a + 1
  · rw [getD_append_left _ (by rw [htl]; exact hja), getD_take _ hja]
    exact hc j (by omega)
  · obtain ⟨k, rfl⟩ : ∃ k, j = (a + 1) + k := ⟨j - (a + 1), by omega⟩
    rw [show (a + 1) + k = (l.take (a + 1)).length + k from by rw [htl],
      getD_append_shift]
    have hk : k < (set_displayName (l.getD p .null) nn :: l.drop (a + 1)).length := by
      simp only [List.length_cons, List.length_drop]
      omega
    rw [ordinalsFrom_getD _ _ hk]
    have hdict : ∃ skvs,
        (set_displayName (l.getD p .null) nn :: l.drop (a + 1)).getD k .null
          = .dict skvs := by
      cases k with
      | zero =>
        obtain ⟨skvs, heq, _⟩ := sec_ord_dict (hc p hpl)
        rw [List.getD_cons_zero, heq, set_displayName_dict]
        exact ⟨_, rfl⟩
      | succ k2 =>
        rw [List.getD_cons_succ, getD_drop]
        obtain ⟨skvs, heq, _⟩ := sec_ord_dict (hc ((a + 1) + k2) (by omega))
        exact ⟨skvs, heq⟩
    obtain ⟨skvs, hsk⟩ := hdict
    rw [hsk, sec_ord_set_ordinal]
    congr 1
    rw [htl]
    omega

theorem apply_ops_preserves_contig : ∀ {ops : List SectionOp} {layout out : Value},
    ordinals_contiguous layout = true → apply_ops layout ops = .ok out →
    ordinals_contiguous out = true := by
  intro ops
  induction ops with
  | nil =>
    intro layout out hco h
    rw [apply_ops, Except.ok.injEq] at h
    rw [← h]
    exact hco
  | cons op ops ih =>
    intro layout out hco h
    rw [apply_ops] at h
    rcases hmid : apply_op layout op with e | mid <;> rw [hmid] at h
    · rw [except_bind_err] at h
      exact Except.noConfusion h
    · rw [except_bind_ok] at h
      refine ih ?_ h
      cases op with
      | rename c n =>
        rw [apply_op] at hmid
        exact rename_preserves_contig hco hmid
      | duplicate d an nn =>
        rw [apply_op] at hmid
        exact duplicate_preserves_contig hco hmid

end PBIX

namespace PBIX

theorem set_getD_self {l : List Value} {i : Nat} (d : Value)
    (h : i < l.length) : l.set i (l.getD i d) = l := by
  rw [List.getD_eq_getElem l d h]
  apply List.ext_getElem?
  intro j
  by_cases hij : i = j
  · subst hij
    simp [List.getElem?_set_self, h, List.getElem?_eq_getElem h]
  · simp [List.getElem?_set_ne hij]

theorem find_first_idx_first : ∀ {l : List Value} {name : String} {i : Nat},
    find_first_idx name l = .ok i →
    ∀ j, j < i → section_named (l.getD j .null) name = false := by
  intro l
  induction l with
  | nil =>
    intro name i h
    exact Except.noConfusion h
  | cons s rest ih =>
    intro name i h
    cases s
    case dict kvs =>
      rw [find_first_idx] at h
      rcases hl : kvs.lookup "displayName" with _ | v <;> rw [hl] at h
      · exact Except.noConfusion h
      · simp only [] at h
        by_cases hm : pyEqStr v name = true
        · rw [if_pos hm, Except.ok.injEq] at h
          subst h
          intro j hj
          exact absurd hj (by omega)
        · rw [if_neg hm] at h
          rcases hf : find_first_idx name rest with e | j0 <;> rw [hf] at h
          · exact Except.noConfusion h
          · rw [show Except.map (· + 1) (Except.ok j0)
              = (Except.ok (j0 + 1) : Except PyErr Nat) from rfl,
              Except.ok.injEq] at h
            subst h
            intro j hj
            cases j with
            | zero =>
              rw [List.getD_cons_zero, section_named]
              simp only [hl]
              rw [Bool.eq_false_iff]
              exact hm
            | succ j2 =>
              rw [List.getD_cons_succ]
              exact ih hf j2 (by omega)
    all_goals exact Except.noConfusion h

theorem find_first_idx_wn : ∀ {l : List Value} {name : String},
    sections_well_named l = true →
    (∃ i, find_first_idx name l = .ok i)
      ∨ find_first_idx name l = .error .stopIteration := by
  intro l
  induction l with
  | nil =>
    intro name _
    exact Or.inr rfl
  | cons s rest ih =>
    intro name hw
    rw [sections_well_named_cons, Bool.and_eq_true] at hw
    cases s
    case dict kvs =>
      rw [find_first_idx]
      rcases hl : kvs.lookup "displayName" with _ | v
      · simp only [] at hw
        rw [hl] at hw
        exact absurd hw.1 (by simp)
      · simp only []
        by_cases hm : pyEqStr v name = true
        · exact Or.inl ⟨0, by rw [if_pos hm]⟩
        · rw [if_neg hm]
          rcases ih hw.2 with ⟨i, hi⟩ | hi
          · exact Or.inl ⟨i + 1, by rw [hi]; rfl⟩
          · exact Or.inr (by rw [hi]; rfl)
    all_goals exact absurd hw.1 (by simp)

theorem rename_section_not_found {kvs : List (String × Value)} {l : List Value}
    {name x : String}
    (hs : kvs.lookup "sections" = some (.list l))
    (hw : sections_well_named l = true)
    (hn : ∀ s ∈ l, section_named s name = false) :
    rename_section (.dict kvs) name x = .error .stopIteration := by
  rw [rename_section, get_sections_eq hs, except_bind_ok]
  simp only []
  rw [find_first_idx_not_found hw hn, except_bind_err]

theorem duplicate_section_not_found {kvs : List (String × Value)} {l : List Value}
    {d an nn : String}
    (hs : kvs.lookup "sections" = some (.list l))
    (hw : sections_well_named l = true)
    (hn : (∀ s ∈ l, section_named s d = false)
      ∨ (∀ s ∈ l, section_named s an = false)) :
    duplicate_section (.dict kvs) d an nn = .error .stopIteration := by
  rw [duplicate_section, get_sections_eq hs, except_bind_ok]
  simp only []
  rcases hn with hn | hn
  · rw [find_first_idx_not_found hw hn, except_bind_err]
  · rcases @find_first_idx_wn l d hw with ⟨p, hfp⟩ | hfp
    · rw [hfp, except_bind_ok, find_first_idx_not_found hw hn, except_bind_err]
    · rw [hfp, except_bind_err]

end PBIX

/-! Theorems: the heap model — wellformedness, read congruence. -/

namespace PBIX

theorem heapWF_refs {h : Heap} (hw : heapWF h = true) {b : Nat}
    (hb : b < h.length) {r : Nat}
    (hr : r ∈ objRefs (h.getD b (.leaf .null))) : r < b := by
  rw [heapWF, List.all_eq_true] at hw
  have h1 := hw b (List.mem_range.mpr hb)
  rw [List.all_eq_true] at h1
  simpa using h1 r hr

theorem heapWF_extend {h h1 : Heap} (hw : heapWF h = true)
    (hold : ∀ b, b < h.length →
      h1.getD b (.leaf .null) = h.getD b (.leaf .null))
    (hfresh : ∀ b, h.length ≤ b → b < h1.length →
      ∀ x ∈ objRefs (h1.getD b (.leaf .null)), h.length ≤ x ∧ x < b) :
    heapWF h1 = true := by
  rw [heapWF, List.all_eq_true]
  intro i hi
  rw [List.mem_range] at hi
  rw [List.all_eq_true]
  intro r hr
  simp only [decide_eq_true_eq]
  by_cases hib : i < h.length
  · rw [hold i hib] at hr
    exact heapWF_refs hw hib hr
  · exact (hfresh i (by omega) hi r hr).2

theorem valueAtF_congr : ∀ (fuel : Nat) {h h' : Heap} {R : Nat → Prop},
    (∀ b, R b → h.getD b (.leaf .null) = h'.getD b (.leaf .null)) →
    (∀ b, R b → ∀ r ∈ objRefs (h.getD b (.leaf .null)), R r) →
    ∀ {a : Nat}, R a → valueAtF fuel h a = valueAtF fuel h' a := by
  intro fuel
  induction fuel with
  | zero =>
    intros
    rfl
  | succ f ih =>
    intro h h' R hagree hclosed a ha
    rw [valueAtF, valueAtF, ← hagree a ha]
    cases hnode : h.getD a (.leaf .null) with
    | leaf v => rfl
    | listObj es =>
      simp only []
      congr 1
      apply List.map_congr_left
      intro e he
      refine ih hagree hclosed (hclosed a ha e ?_)
      rw [hnode]
      exact he
    | dictObj fs =>
      simp only []
      congr 1
      apply List.map_congr_left
      intro kv hkv
      have hv : R kv.2 := by
        refine hclosed a ha kv.2 ?_
        rw [hnode, objRefs]
        exact List.mem_map_of_mem _ hkv
      rw [ih hagree hclosed hv]

end PBIX

namespace PBIX

theorem getD_append_last {α : Type} (l : List α) (x d : α) :
    (l ++ [x]).getD l.length d = x := by
  simp

theorem heapExtends_append (h ext : Heap) : HeapExtends h (h ++ ext) :=
  ⟨by simp, fun b hb => getD_append_left _ hb⟩

theorem heapExtends_trans {h h1 h2 : Heap} (l : HeapExtends h h1)
    (r : HeapExtends h1 h2) : HeapExtends h h2 := by
  refine ⟨le_trans l.1 r.1, fun b hb => ?_⟩
  rw [r.2 b (lt_of_lt_of_le hb l.1), l.2 b hb]

theorem valueAt_extend {h1 h2 : Heap} (hw1 : heapWF h1 = true)
    (hx : HeapExtends h1 h2) {a : Nat} (ha : a < h1.length) (f : Nat) :
    valueAtF f h2 a = valueAtF f h1 a := by
  refine @valueAtF_congr f h2 h1 (fun x => x < h1.length)
    (fun b hb => hx.2 b hb) ?_ a ha
  intro b hb r hr
  rw [hx.2 b hb] at hr
  exact lt_trans (heapWF_refs hw1 hb hr) hb

theorem freshClosed_empty {h : Heap} (v : Value) :
    FreshClosed h (h ++ [.leaf v]) := by
  intro b hb1 hb2 x hx
  have hb : b = h.length := by
    rw [List.length_append, List.length_cons, List.length_nil] at hb2
    omega
  subst hb
  rw [getD_append_last] at hx
  exact absurd hx (by simp [objRefs])

theorem copyRefList_props (fc : Nat)
    (IH : ∀ (h : Heap) (a : Nat), heapWF h = true → a < h.length →
      DeepcopyProps fc h a (deepcopyF fc h a)) :
    ∀ (es : List Nat) (h : Heap), heapWF h = true → (∀ e ∈ es, e < h.length) →
    HeapExtends h (copyRefList (deepcopyF fc) h es).1
    ∧ FreshClosed h (copyRefList (deepcopyF fc) h es).1
    ∧ (∀ x ∈ (copyRefList (deepcopyF fc) h es).2,
        h.length ≤ x ∧ x < (copyRefList (deepcopyF fc) h es).1.length)
    ∧ (∀ f, f ≤ fc →
        (copyRefList (deepcopyF fc) h es).2.map
            (valueAtF f (copyRefList (deepcopyF fc) h es).1)
          = es.map (valueAtF f h)) := by
  intro es
  induction es with
  | nil =>
    intro h hw _
    refine ⟨⟨le_refl _, fun b _ => rfl⟩, ?_, ?_, ?_⟩
    · intro b hb1 hb2 x _
      rw [copyRefList] at hb2
      simp only [] at hb2
      omega
    · intro x hx
      exact absurd hx (by simp [copyRefList])
    · intro f _
      rfl
  | cons e es ih =>
    intro h hw hes
    have hp := IH h e hw (hes e (by simp))
    obtain ⟨hpx, hpf, hpr1, hpr2, hpv⟩ := hp
    have hw1 : heapWF (deepcopyF fc h e).1 = true :=
      heapWF_extend hw hpx.2 hpf
    have hq := ih (deepcopyF fc h e).1 hw1
      (fun x hx => lt_of_lt_of_le (hes x (by simp [hx])) hpx.1)
    obtain ⟨hqx, hqf, hqm, hqv⟩ := hq
    rw [copyRefList]
    simp only []
    refine ⟨heapExtends_trans hpx hqx, ?_, ?_, ?_⟩
    · -- fresh closure for the combined extension
      intro b hb1 hb2 x hx
      by_cases hbp : b < (deepcopyF fc h e).1.length
      · rw [hqx.2 b hbp] at hx
        exact hpf b hb1 hbp x hx
      · have := hqf b (by omega) hb2 x hx
        exact ⟨le_trans hpx.1 this.1, this.2⟩
    · intro x hx
      rcases List.mem_cons.mp hx with rfl | hx2
      · exact ⟨hpr1, lt_of_lt_of_le hpr2 hqx.1⟩
      · have := hqm x hx2
        exact ⟨le_trans hpx.1 this.1, this.2⟩
    · intro f hf
      rw [List.map_cons, List.map_cons]
      congr 1
      · rw [valueAt_extend hw1 hqx hpr2 f]
        exact hpv f hf
      · rw [hqv f hf]
        apply List.map_congr_left
        intro x hx
        exact valueAt_extend hw hpx (hes x (by simp [hx])) f

theorem copyRefKVs_props (fc : Nat)
    (IH : ∀ (h : Heap) (a : Nat), heapWF h = true → a < h.length →
      DeepcopyProps fc h a (deepcopyF fc h a)) :
    ∀ (fs : List (String × Nat)) (h : Heap), heapWF h = true →
    (∀ kv ∈ fs, kv.2 < h.length) →
    HeapExtends h (copyRefKVs (deepcopyF fc) h fs).1
    ∧ FreshClosed h (copyRefKVs (deepcopyF fc) h fs).1
    ∧ (∀ x ∈ (copyRefKVs (deepcopyF fc) h fs).2.map (·.2),
        h.length ≤ x ∧ x < (copyRefKVs (deepcopyF fc) h fs).1.length)
    ∧ (∀ f, f ≤ fc →
        (copyRefKVs (deepcopyF fc) h fs).2.map
            (fun kv => (kv.1, valueAtF f (copyRefKVs (deepcopyF fc) h fs).1 kv.2))
          = fs.map (fun kv => (kv.1, valueAtF f h kv.2))) := by
  intro fs
  induction fs with
  | nil =>
    intro h hw _
    refine ⟨⟨le_refl _, fun b _ => rfl⟩, ?_, ?_, ?_⟩
    · intro b hb1 hb2 x _
      rw [copyRefKVs] at hb2
      simp only [] at hb2
      omega
    · intro x hx
      exact absurd hx (by simp [copyRefKVs])
    · intro f _
      rfl
  | cons kv fs ih =>
    intro h hw hes
    have hp := IH h kv.2 hw (hes kv (by simp))
    obtain ⟨hpx, hpf, hpr1, hpr2, hpv⟩ := hp
    have hw1 : heapWF (deepcopyF fc h kv.2).1 = true :=
      heapWF_extend hw hpx.2 hpf
    have hq := ih (deepcopyF fc h kv.2).1 hw1
      (fun x hx => lt_of_lt_of_le (hes x (by simp [hx])) hpx.1)
    obtain ⟨hqx, hqf, hqm, hqv⟩ := hq
    rw [copyRefKVs]
    simp only []
    refine ⟨heapExtends_trans hpx hqx, ?_, ?_, ?_⟩
    · intro b hb1 hb2 x hx
      by_cases hbp : b < (deepcopyF fc h kv.2).1.length
      · rw [hqx.2 b hbp] at hx
        exact hpf b hb1 hbp x hx
      · have := hqf b (by omega) hb2 x hx
        exact ⟨le_trans hpx.1 this.1, this.2⟩
    · intro x hx
      rw [List.map_cons] at hx
      rcases List.mem_cons.mp hx with rfl | hx2
      · exact ⟨hpr1, lt_of_lt_of_le hpr2 hqx.1⟩
      · have := hqm x hx2
        exact ⟨le_trans hpx.1 this.1, this.2⟩
    · intro f hf
      rw [List.map_cons, List.map_cons]
      congr 1
      · rw [valueAt_extend hw1 hqx hpr2 f, hpv f hf]
      · rw [hqv f hf]
        apply List.map_congr_left
        intro x hx
        rw [valueAt_extend hw hpx (hes x (by simp [hx])) f]

end PBIX

namespace PBIX

theorem deepcopy_props : ∀ (fc : Nat) (h : Heap) (a : Nat),
    heapWF h = true → a < h.length →
    DeepcopyProps fc h a (deepcopyF fc h a) := by
  intro fc
  induction fc with
  | zero =>
    intro h a hw ha
    refine ⟨heapExtends_append h [.leaf .null], freshClosed_empty .null,
      le_refl _, by simp [deepcopyF], ?_⟩
    intro f hf
    rw [Nat.le_zero.mp hf]
    rfl
  | succ fc ih =>
    intro h a hw ha
    cases hnode : h.getD a (.leaf .null) with
    | leaf v =>
      have hres : deepcopyF (fc + 1) h a = (h ++ [.leaf v], h.length) := by
        rw [deepcopyF, hnode]
      rw [hres]
      refine ⟨heapExtends_append h [.leaf v], freshClosed_empty v,
        le_refl _, by simp, ?_⟩
      intro f _
      cases f with
      | zero => rfl
      | succ f2 =>
        rw [valueAtF, valueAtF, hnode, getD_append_last]
    | listObj es =>
      have hes : ∀ e ∈ es, e < h.length := by
        intro e he
        have := heapWF_refs hw ha (by rw [hnode]; exact he)
        omega
      obtain ⟨hqx, hqf, hqm, hqv⟩ := copyRefList_props fc ih es h hw hes
      have hres : deepcopyF (fc + 1) h a
          = ((copyRefList (deepcopyF fc) h es).1
              ++ [.listObj (copyRefList (deepcopyF fc) h es).2],
             (copyRefList (deepcopyF fc) h es).1.length) := by
        rw [deepcopyF, hnode]
      rw [hres]
      have hwq : heapWF (copyRefList (deepcopyF fc) h es).1 = true :=
        heapWF_extend hw hqx.2 hqf
      refine ⟨heapExtends_trans hqx
          (heapExtends_append _ [.listObj (copyRefList (deepcopyF fc) h es).2]),
        ?_, le_trans hqx.1 (le_refl _), by simp, ?_⟩
      · -- fresh closure including the new list node
        intro b hb1 hb2 x hx
        rw [List.length_append, List.length_cons, List.length_nil] at hb2
        by_cases hbq : b < (copyRefList (deepcopyF fc) h es).1.length
        · rw [getD_append_left _ hbq] at hx
          exact hqf b hb1 hbq x hx
        · have hbeq : b = (copyRefList (deepcopyF fc) h es).1.length := by omega
          subst hbeq
          rw [getD_append_last] at hx
          rw [objRefs] at hx
          exact hqm x hx
      · intro f hf
        cases f with
        | zero => rfl
        | succ f2 =>
          rw [valueAtF, valueAtF, hnode, getD_append_last]
          simp only []
          congr 1
          have hstep : (copyRefList (deepcopyF fc) h es).2.map
              (valueAtF f2 ((copyRefList (deepcopyF fc) h es).1
                ++ [Obj.listObj (copyRefList (deepcopyF fc) h es).2]))
              = (copyRefList (deepcopyF fc) h es).2.map
                  (valueAtF f2 (copyRefList (deepcopyF fc) h es).1) := by
            apply List.map_congr_left
            intro x hx
            exact valueAt_extend hwq (heapExtends_append _ _) (hqm x hx).2 f2
          rw [hstep]
          exact hqv f2 (by omega)
    | dictObj fs =>
      have hes : ∀ kv ∈ fs, kv.2 < h.length := by
        intro kv hkv
        have : kv.2 ∈ objRefs (h.getD a (.leaf .null)) := by
          rw [hnode, objRefs]
          exact List.mem_map_of_mem _ hkv
        have := heapWF_refs hw ha this
        omega
      obtain ⟨hqx, hqf, hqm, hqv⟩ := copyRefKVs_props fc ih fs h hw hes
      have hres : deepcopyF (fc + 1) h a
          = ((copyRefKVs (deepcopyF fc) h fs).1
              ++ [.dictObj (copyRefKVs (deepcopyF fc) h fs).2],
             (copyRefKVs (deepcopyF fc) h fs).1.length) := by
        rw [deepcopyF, hnode]
      rw [hres]
      have hwq : heapWF (copyRefKVs (deepcopyF fc) h fs).1 = true :=
        heapWF_extend hw hqx.2 hqf
      refine ⟨heapExtends_trans hqx
          (heapExtends_append _ [.dictObj (copyRefKVs (deepcopyF fc) h fs).2]),
        ?_, le_trans hqx.1 (le_refl _), by simp, ?_⟩
      · intro b hb1 hb2 x hx
        rw [List.length_append, List.length_cons, List.length_nil] at hb2
        by_cases hbq : b < (copyRefKVs (deepcopyF fc) h fs).1.length
        · rw [getD_append_left _ hbq] at hx
          exact hqf b hb1 hbq x hx
        · have hbeq : b = (copyRefKVs (deepcopyF fc) h fs).1.length := by omega
          subst hbeq
          rw [getD_append_last] at hx
          rw [objRefs] at hx
          exact hqm x hx
      · intro f hf
        cases f with
        | zero => rfl
        | succ f2 =>
          rw [valueAtF, valueAtF, hnode, getD_append_last]
          simp only []
          congr 1
          have hstep : (copyRefKVs (deepcopyF fc) h fs).2.map
              (fun kv => (kv.1, valueAtF f2 ((copyRefKVs (deepcopyF fc) h fs).1
                ++ [Obj.dictObj (copyRefKVs (deepcopyF fc) h fs).2]) kv.2))
              = (copyRefKVs (deepcopyF fc) h fs).2.map
                  (fun kv => (kv.1,
                    valueAtF f2 (copyRefKVs (deepcopyF fc) h fs).1 kv.2)) := by
            apply List.map_congr_left
            intro x hx
            have hx2 : x.2 ∈ (copyRefKVs (deepcopyF fc) h fs).2.map (·.2) :=
              List.mem_map_of_mem _ hx
            rw [valueAt_extend hwq (heapExtends_append _ _) (hqm x.2 hx2).2 f2]
          rw [hstep]
          exact hqv f2 (by omega)

end PBIX

namespace PBIX

theorem valueAt_set_fresh {h : Heap} (hw : heapWF h = true) {h2 : Heap}
    (hx : HeapExtends h h2) {a0 : Nat} (ha0 : a0 < h.length)
    {b : Nat} (hb : h.length ≤ b) (o : Obj) (f : Nat) :
    valueAtF f (heapSet h2 b o) a0 = valueAtF f h a0 := by
  refine @valueAtF_congr f (heapSet h2 b o) h (fun x => x < h.length)
    ?_ ?_ a0 ha0
  · intro c hc
    rw [heapSet, getD_set_ne _ o (by omega)]
    exact hx.2 c hc
  · intro c hc r hr
    rw [heapSet, getD_set_ne _ o (by omega), hx.2 c hc] at hr
    exact lt_trans (heapWF_refs hw hc hr) hc

theorem valueAt_set_old {h h2 : Heap}
    (hfc : FreshClosed h h2) {r : Nat} (hr1 : h.length ≤ r)
    (hr2 : r < h2.length) {b : Nat} (hb : b < h.length) (o : Obj) (f : Nat) :
    valueAtF f (heapSet h2 b o) r = valueAtF f h2 r := by
  refine @valueAtF_congr f (heapSet h2 b o) h2
    (fun x => h.length ≤ x ∧ x < h2.length) ?_ ?_ r ⟨hr1, hr2⟩
  · intro c hc
    rw [heapSet, getD_set_ne _ o (by omega)]
  · intro c hc x hxm
    rw [heapSet, getD_set_ne _ o (by omega)] at hxm
    have hb2 := hfc c hc.1 hc.2 x hxm
    exact ⟨hb2.1, lt_trans hb2.2 hc.2⟩

end PBIX

/-! ## The claims -/

namespace PBIX

/-- Claim C1: ordinal contiguity is an invariant — for every document whose
sections satisfy `sections[i].ordinal == i`, after any finite sequence of
`rename_section` / `duplicate_section` operations that succeeds (each name
resolving to a section), `sections[i].ordinal == i` still holds. -/
theorem spec_C1_contiguity_invariant {layout out : Value} {ops : List SectionOp}
    (hco : ordinals_contiguous layout = true)
    (h : apply_ops layout ops = .ok out) :
    ordinals_contiguous out = true :=
  apply_ops_preserves_contig hco h

theorem spec_C1_witness :
    ordinals_contiguous (.dict [("sections", .list
      [.dict [("displayName", .str "Page 1"), ("ordinal", .int 0)],
       .dict [("displayName", .str "Page 2"), ("ordinal", .int 1)]])]) = true
    ∧ apply_ops (.dict [("sections", .list
        [.dict [("displayName", .str "Page 1"), ("ordinal", .int 0)],
         .dict [("displayName", .str "Page 2"), ("ordinal", .int 1)]])])
        [.duplicate "Page 1" "Page 1" "Page Foo", .rename "Page 2" "Summary"]
      = .ok (.dict [("sections", .list
        [.dict [("displayName", .str "Page 1"), ("ordinal", .int 0)],
         .dict [("displayName", .str "Page Foo"), ("ordinal", .int 1)],
         .dict [("displayName", .str "Summary"), ("ordinal", .int 2)]])])
    ∧ ordinals_contiguous (.dict [("sections", .list
        [.dict [("displayName", .str "Page 1"), ("ordinal", .int 0)],
         .dict [("displayName", .str "Page Foo"), ("ordinal", .int 1)],
         .dict [("displayName", .str "Summary"), ("ordinal", .int 2)]])]) = true :=
  ⟨rfl, rfl,
    @spec_C1_contiguity_invariant
      (.dict [("sections", .list
        [.dict [("displayName", .str "Page 1"), ("ordinal", .int 0)],
         .dict [("displayName", .str "Page 2"), ("ordinal", .int 1)]])])
      (.dict [("sections", .list
        [.dict [("displayName", .str "Page 1"), ("ordinal", .int 0)],
         .dict [("displayName", .str "Page Foo"), ("ordinal", .int 1)],
         .dict [("displayName", .str "Summary"), ("ordinal", .int 2)]])])
      [.duplicate "Page 1" "Page 1" "Page Foo", .rename "Page 2" "Summary"]
      rfl rfl⟩

/-- Claim C2: `duplicate_section` postcondition — on a document whose
sections are contiguous and contain the two looked-up names, the sections
sequence grows by exactly one; the copy of the first section named
`name_to_dup`, renamed to `new_name` and given the insertion index as
ordinal, lands at index `anchor.ordinal + 1` (the anchor resolved among the
original sections); sections before the insertion index are unchanged and
each original section at or after it moves up one slot with its ordinal
incremented by one. -/
theorem spec_C2_duplicate_postcondition {kvs : List (String × Value)}
    {l : List Value} {p a : Nat} {d an nn : String}
    (hs : kvs.lookup "sections" = some (.list l))
    (hp : find_first_idx d l = .ok p)
    (ha : find_first_idx an l = .ok a)
    (hc : ∀ i, i < l.length → sec_ord (l.getD i .null) = some (i : Int)) :
    ∃ r : List Value,
      duplicate_section (.dict kvs) d an nn
        = .ok (.dict (Json.dictSet kvs "sections" (.list r)))
      ∧ r.length = l.length + 1
      ∧ (∀ i, i < a + 1 → r.getD i .null = l.getD i .null)
      ∧ r.getD (a + 1) .null
          = set_ordinal (set_displayName (l.getD p .null) nn) ((a : Int) + 1)
      ∧ (∀ i, a + 1 ≤ i → i < l.length →
          r.getD (i + 1) .null = set_ordinal (l.getD i .null) ((i : Int) + 1)) := by
  have hal : a < l.length := find_first_idx_lt ha
  have htl : (l.take (a + 1)).length = a + 1 := by
    simp [List.length_take]
    omega
  refine ⟨l.take (a + 1) ++ ordinalsFrom ((a : Int) + 1)
      (set_displayName (l.getD p .null) nn :: l.drop (a + 1)),
    duplicate_section_spec hs hp ha hc, ?_, ?_, ?_, ?_⟩
  · rw [List.length_append, htl, ordinalsFrom_length, List.length_cons,
      List.length_drop]
    omega
  · intro i hi
    rw [getD_append_left _ (htl.symm ▸ hi), getD_take _ hi]
  · have hshift := getD_append_shift (l.take (a + 1))
      (ordinalsFrom ((a : Int) + 1)
        (set_displayName (l.getD p .null) nn :: l.drop (a + 1))) 0 .null
    rw [htl, Nat.add_zero] at hshift
    rw [hshift, ordinalsFrom, List.getD_cons_zero]
  · intro i hi1 hi2
    have hshift := getD_append_shift (l.take (a + 1))
      (ordinalsFrom ((a : Int) + 1)
        (set_displayName (l.getD p .null) nn :: l.drop (a + 1)))
      ((i - (a + 1)) + 1) .null
    rw [htl, show (a + 1) + ((i - (a + 1)) + 1) = i + 1 from by omega] at hshift
    rw [hshift, ordinalsFrom, List.getD_cons_succ,
      ordinalsFrom_getD _ _ (by simp only [List.length_drop]; omega),
      getD_drop, show (a + 1) + (i - (a + 1)) = i from by omega]
    congr 1
    omega

theorem spec_C2_witness :
    List.lookup "sections" [("sections", Value.list
      [.dict [("displayName", .str "Page 1"), ("ordinal", .int 0)],
       .dict [("displayName", .str "Page 2"), ("ordinal", .int 1)]])]
      = some (.list
      [.dict [("displayName", .str "Page 1"), ("ordinal", .int 0)],
       .dict [("displayName", .str "Page 2"), ("ordinal", .int 1)]])
    ∧ find_first_idx "Page 1"
        [.dict [("displayName", .str "Page 1"), ("ordinal", .int 0)],
         .dict [("displayName", .str "Page 2"), ("ordinal", .int 1)]] = .ok 0
    ∧ (∀ i, i < 2 → sec_ord (List.getD
        [.dict [("displayName", .str "Page 1"), ("ordinal", .int 0)],
         .dict [("displayName", .str "Page 2"), ("ordinal", .int 1)]] i .null)
        = some (i : Int))
    ∧ (∃ r : List Value,
        duplicate_section (.dict [("sections", .list
          [.dict [("displayName", .str "Page 1"), ("ordinal", .int 0)],
           .dict [("displayName", .str "Page 2"), ("ordinal", .int 1)]])])
          "Page 1" "Page 1" "Page Foo"
          = .ok (.dict (Json.dictSet
              [("sections", Value.list
                [.dict [("displayName", .str "Page 1"), ("ordinal", .int 0)],
                 .dict [("displayName", .str "Page 2"), ("ordinal", .int 1)]])]
              "sections" (.list r)))
        ∧ r.length = 3
        ∧ (∀ i, i < 1 → r.getD i .null = List.getD
            [.dict [("displayName", .str "Page 1"), ("ordinal", .int 0)],
             .dict [("displayName", .str "Page 2"), ("ordinal", .int 1)]] i .null)
        ∧ r.getD 1 .null = set_ordinal (set_displayName (List.getD
            [.dict [("displayName", .str "Page 1"), ("ordinal", .int 0)],
             .dict [("displayName", .str "Page 2"), ("ordinal", .int 1)]] 0 .null)
            "Page Foo") 1
        ∧ (∀ i, 1 ≤ i → i < 2 →
            r.getD (i + 1) .null = set_ordinal (List.getD
              [.dict [("displayName", .str "Page 1"), ("ordinal", .int 0)],
               .dict [("displayName", .str "Page 2"), ("ordinal", .int 1)]] i .null)
              ((i : Int) + 1))) :=
  ⟨rfl, rfl, by decide,
    @spec_C2_duplicate_postcondition
      [("sections", Value.list
        [.dict [("displayName", .str "Page 1"), ("ordinal", .int 0)],
         .dict [("displayName", .str "Page 2"), ("ordinal", .int 1)]])]
      [.dict [("displayName", .str "Page 1"), ("ordinal", .int 0)],
       .dict [("displayName", .str "Page 2"), ("ordinal", .int 1)]]
      0 0 "Page 1" "Page 1" "Page Foo" rfl rfl rfl (by decide)⟩

end PBIX

namespace PBIX

/-- Claim C3: special-key asymmetric round trip — the encode recursion turns
the mapping `\x7b"config": \x7b"a": 1\x7d\x7d` into a mapping whose
`config` value is the JSON string literal serializing `\x7b"a": 1\x7d`
(produced by the generic serializer `json.dumps`, not by re-entering the
encode rule), decoding the encoded document reconstructs the original
mapping, and the same holds for the key `filters`. -/
theorem spec_C3_special_key_roundtrip :
    recursive_parser_json2str (.dict [("config", .dict [("a", .int 1)])])
      = .dict [("config", .str (Json.dumps (.dict [("a", .int 1)])))]
    ∧ decode (encode (.dict [("config", .dict [("a", .int 1)])]))
      = .dict [("config", .dict [("a", .int 1)])]
    ∧ recursive_parser_json2str (.dict [("filters", .dict [("a", .int 1)])])
      = .dict [("filters", .str (Json.dumps (.dict [("a", .int 1)])))]
    ∧ decode (encode (.dict [("filters", .dict [("a", .int 1)])]))
      = .dict [("filters", .dict [("a", .int 1)])] :=
  ⟨rfl, rfl, rfl, rfl⟩

/-- Claim C4 (counterexample): the round trip fails on a document with no
special-key fields whose string value is itself parseable JSON — decoding
the encoded document re-parses the string `"123"` into the number `123`. -/
theorem spec_C4_roundtrip_counterexample :
    no_special_keys (.dict [("x", .str "123")]) = true
    ∧ decode (encode (.dict [("x", .str "123")])) ≠ .dict [("x", .str "123")] := by
  refine ⟨rfl, ?_⟩
  intro h
  rw [show decode (encode (.dict [("x", .str "123")]))
    = .dict [("x", .int 123)] from rfl] at h
  simp at h

/-- Claim C4 (amended): for a document with no special-key fields, with no
string field that is itself parseable JSON text, and with no duplicate keys
in any mapping, `decode (encode d) = d`. -/
theorem spec_C4_roundtrip_amended {v : Value}
    (h1 : no_special_keys v = true) (h2 : json_free v = true)
    (h3 : Json.nodupKeysV v = true) :
    decode (encode v) = v :=
  decode_encode_eq h1 h2 h3

theorem spec_C4_witness :
    no_special_keys (.dict [("x", .str "Page"), ("n", .int 5)]) = true
    ∧ json_free (.dict [("x", .str "Page"), ("n", .int 5)]) = true
    ∧ Json.nodupKeysV (.dict [("x", .str "Page"), ("n", .int 5)]) = true
    ∧ decode (encode (.dict [("x", .str "Page"), ("n", .int 5)]))
        = .dict [("x", .str "Page"), ("n", .int 5)] :=
  ⟨rfl, rfl, rfl,
    @spec_C4_roundtrip_amended
      (.dict [("x", .str "Page"), ("n", .int 5)]) rfl rfl rfl⟩

/-- Claim C5: the decode recursion is key-agnostic and fully materializing
— a string whose text is valid JSON is parsed and processed further (so
double-encoded JSON is unwrapped), every list element and every mapping
value is processed with the same rule regardless of key name, and in the
result no string value anywhere is parseable JSON text. -/
theorem spec_C5_decode_uniform :
    (∀ s v, Json.loads s = some v →
      recursive_parser_str2json (.str s) = recursive_parser_str2json v)
    ∧ (∀ xs, recursive_parser_str2json (.list xs)
        = .list (xs.map recursive_parser_str2json))
    ∧ (∀ kvs, recursive_parser_str2json (.dict kvs)
        = .dict (kvs.map fun kv => (kv.1, recursive_parser_str2json kv.2)))
    ∧ (∀ v, json_free (recursive_parser_str2json v) = true) :=
  ⟨fun _ _ h => str2json_str_some h, str2json_list, str2json_dict,
    str2json_json_free⟩

theorem spec_C5_witness :
    Json.loads "\"1\"" = some (.str "1")
    ∧ recursive_parser_str2json (.str "\"1\"")
        = recursive_parser_str2json (.str "1") :=
  ⟨rfl, spec_C5_decode_uniform.1 "\"1\"" (.str "1") rfl⟩

/-- Claim C6: decode totality and degradation — the decode recursion is a
total function; a string that does not parse as JSON is returned unchanged,
and number, boolean and null leaves pass through unchanged. -/
theorem spec_C6_decode_total :
    (∀ s, Json.loads s = none → recursive_parser_str2json (.str s) = .str s)
    ∧ (∀ n : Int, recursive_parser_str2json (.int n) = .int n)
    ∧ (∀ b, recursive_parser_str2json (.bool b) = .bool b)
    ∧ recursive_parser_str2json .null = .null :=
  ⟨fun _ h => str2json_str_none h, str2json_int, str2json_bool, str2json_null⟩

theorem spec_C6_witness :
    Json.loads "Page 1" = none
    ∧ recursive_parser_str2json (.str "Page 1") = .str "Page 1" :=
  ⟨rfl, spec_C6_decode_total.1 "Page 1" rfl⟩

end PBIX

namespace PBIX

/-- Claim C7: lookup failure is an error — when no section's `displayName`
equals the looked-up name, `rename_section` fails with `StopIteration` (the
specification's NotFoundError), and `duplicate_section` fails the same way
when either `name_to_dup` or `name_after` matches no section; the error is
returned to the caller and no modified document is produced (both lookups
precede every mutation). -/
theorem spec_C7_lookup_failure {kvs : List (String × Value)} {l : List Value}
    {name x d an nn : String}
    (hs : kvs.lookup "sections" = some (.list l))
    (hw : sections_well_named l = true) :
    ((∀ s ∈ l, section_named s name = false) →
      rename_section (.dict kvs) name x = .error .stopIteration)
    ∧ (((∀ s ∈ l, section_named s d = false)
        ∨ (∀ s ∈ l, section_named s an = false)) →
      duplicate_section (.dict kvs) d an nn = .error .stopIteration) :=
  ⟨fun hn => rename_section_not_found hs hw hn,
   fun hn => duplicate_section_not_found hs hw hn⟩

theorem spec_C7_witness :
    List.lookup "sections" [("sections", Value.list
      [.dict [("displayName", .str "Page 1"), ("ordinal", .int 0)]])]
      = some (.list [.dict [("displayName", .str "Page 1"), ("ordinal", .int 0)]])
    ∧ sections_well_named
        [.dict [("displayName", .str "Page 1"), ("ordinal", .int 0)]] = true
    ∧ rename_section (.dict [("sections", .list
        [.dict [("displayName", .str "Page 1"), ("ordinal", .int 0)]])])
        "DoesNotExist" "X" = .error .stopIteration
    ∧ duplicate_section (.dict [("sections", .list
        [.dict [("displayName", .str "Page 1"), ("ordinal", .int 0)]])])
        "DoesNotExist" "Page 1" "X" = .error .stopIteration :=
  ⟨rfl, rfl,
    (@spec_C7_lookup_failure
      [("sections", Value.list
        [.dict [("displayName", .str "Page 1"), ("ordinal", .int 0)]])]
      [.dict [("displayName", .str "Page 1"), ("ordinal", .int 0)]]
      "DoesNotExist" "X" "DoesNotExist" "Page 1" "X" rfl rfl).1 (by decide),
    (@spec_C7_lookup_failure
      [("sections", Value.list
        [.dict [("displayName", .str "Page 1"), ("ordinal", .int 0)]])]
      [.dict [("displayName", .str "Page 1"), ("ordinal", .int 0)]]
      "DoesNotExist" "X" "DoesNotExist" "Page 1" "X" rfl rfl).2
      (Or.inl (by decide))⟩

end PBIX

namespace PBIX

/-- Claim C8: `rename_section` frame — on a document containing a section
named `crt`, renaming updates the first section so named (earlier sections
do not match), setting only its `displayName`; every other section is
untouched, the renamed section's `ordinal` and all its other fields are
unchanged, every other key of the layout mapping is unchanged, and renaming
a section to its current name leaves the document unchanged. -/
theorem spec_C8_rename_frame {kvs : List (String × Value)} {l : List Value}
    {crt nn : String} {i : Nat}
    (hs : kvs.lookup "sections" = some (.list l))
    (hi : find_first_idx crt l = .ok i) :
    rename_section (.dict kvs) crt nn
      = .ok (.dict (Json.dictSet kvs "sections"
          (.list (l.set i (set_displayName (l.getD i .null) nn)))))
    ∧ section_named (l.getD i .null) crt = true
    ∧ (∀ j, j < i → section_named (l.getD j .null) crt = false)
    ∧ (∀ j, j ≠ i → (l.set i (set_displayName (l.getD i .null) nn)).getD j .null
        = l.getD j .null)
    ∧ sec_ord (set_displayName (l.getD i .null) nn) = sec_ord (l.getD i .null)
    ∧ (∀ skvs, l.getD i .null = .dict skvs →
        set_displayName (l.getD i .null) nn
            = .dict (Json.dictSet skvs "displayName" (.str nn))
        ∧ (Json.dictSet skvs "displayName" (.str nn)).lookup "displayName"
            = some (.str nn)
        ∧ ∀ k, k ≠ "displayName" →
            (Json.dictSet skvs "displayName" (.str nn)).lookup k
              = skvs.lookup k)
    ∧ (∀ k, k ≠ "sections" →
        (Json.dictSet kvs "sections"
          (.list (l.set i (set_displayName (l.getD i .null) nn)))).lookup k
          = kvs.lookup k)
    ∧ (crt = nn → rename_section (.dict kvs) crt nn = .ok (.dict kvs)) := by
  obtain ⟨skvs0, hgd, hdn⟩ := find_first_idx_getD hi
  have hil : i < l.length := find_first_idx_lt hi
  refine ⟨rename_section_spec hs hi, ?_, find_first_idx_first hi, ?_, ?_,
    ?_, ?_, ?_⟩
  · rw [hgd, section_named]
    simp only [hdn]
    simp [pyEqStr]
  · intro j hj
    exact getD_set_ne _ _ (fun he => hj he.symm)
  · exact sec_ord_set_displayName _ _
  · intro skvs hsk
    rw [hsk, set_displayName_dict]
    exact ⟨rfl, Json.dictSet_lookup_self skvs "displayName" (.str nn),
      fun k hk => Json.dictSet_lookup_ne hk skvs (.str nn)⟩
  · intro k hk
    exact Json.dictSet_lookup_ne hk kvs _
  · intro he
    subst he
    rw [rename_section_spec hs hi, hgd, set_displayName_dict,
      Json.dictSet_of_lookup_eq hdn, ← hgd, set_getD_self _ hil,
      Json.dictSet_of_lookup_eq hs]

theorem spec_C8_witness :
    List.lookup "sections" [("sections", Value.list
      [.dict [("displayName", .str "Page 1"), ("ordinal", .int 0)],
       .dict [("displayName", .str "Page 2"), ("ordinal", .int 1)]])]
      = some (.list
      [.dict [("displayName", .str "Page 1"), ("ordinal", .int 0)],
       .dict [("displayName", .str "Page 2"), ("ordinal", .int 1)]])
    ∧ find_first_idx "Page 2"
        [.dict [("displayName", .str "Page 1"), ("ordinal", .int 0)],
         .dict [("displayName", .str "Page 2"), ("ordinal", .int 1)]] = .ok 1
    ∧ rename_section (.dict [("sections", .list
        [.dict [("displayName", .str "Page 1"), ("ordinal", .int 0)],
         .dict [("displayName", .str "Page 2"), ("ordinal", .int 1)]])])
        "Page 2" "Summary"
      = .ok (.dict [("sections", .list
        [.dict [("displayName", .str "Page 1"), ("ordinal", .int 0)],
         .dict [("displayName", .str "Summary"), ("ordinal", .int 1)]])]) := by
  refine ⟨rfl, rfl, ?_⟩
  have h := (@spec_C8_rename_frame
    [("sections", Value.list
      [.dict [("displayName", .str "Page 1"), ("ordinal", .int 0)],
       .dict [("displayName", .str "Page 2"), ("ordinal", .int 1)]])]
    [.dict [("displayName", .str "Page 1"), ("ordinal", .int 0)],
     .dict [("displayName", .str "Page 2"), ("ordinal", .int 1)]]
    "Page 2" "Summary" 1 rfl rfl).1
  exact h

end PBIX

namespace PBIX

/-- Claim C9: duplicate isolation — `copy.deepcopy` of the section (modeled
on the object heap) yields a copy that reads back to the same value yet
shares no mutable object with the original: mutating any address of the
copy's freshly allocated region leaves the original's value unchanged, and
mutating any pre-existing address (any object of the original) leaves the
copy's value unchanged. -/
theorem spec_C9_duplicate_isolation {h : Heap} {a : Nat} (fc : Nat)
    (hw : heapWF h = true) (ha : a < h.length) :
    (∀ f, f ≤ fc →
      valueAtF f (deepcopyF fc h a).1 (deepcopyF fc h a).2 = valueAtF f h a)
    ∧ (∀ b o f, h.length ≤ b →
      valueAtF f (heapSet (deepcopyF fc h a).1 b o) a = valueAtF f h a)
    ∧ (∀ b o f, b < h.length →
      valueAtF f (heapSet (deepcopyF fc h a).1 b o) (deepcopyF fc h a).2
        = valueAtF f (deepcopyF fc h a).1 (deepcopyF fc h a).2) := by
  obtain ⟨hx, hf, hr1, hr2, hv⟩ := deepcopy_props fc h a hw ha
  refine ⟨hv, ?_, ?_⟩
  · intro b o f hb
    exact valueAt_set_fresh hw hx ha hb o f
  · intro b o f hb
    rw [valueAt_set_old hf hr1 hr2 hb o f]

theorem spec_C9_witness :
    heapWF [.leaf (.str "t"), .dictObj [("config", 0)]] = true
    ∧ 1 < List.length [Obj.leaf (.str "t"), Obj.dictObj [("config", 0)]]
    ∧ valueAtF 2 (deepcopyF 2 [.leaf (.str "t"), .dictObj [("config", 0)]] 1).1
        (deepcopyF 2 [.leaf (.str "t"), .dictObj [("config", 0)]] 1).2
      = valueAtF 2 [.leaf (.str "t"), .dictObj [("config", 0)]] 1
    ∧ valueAtF 2 (heapSet
        (deepcopyF 2 [.leaf (.str "t"), .dictObj [("config", 0)]] 1).1
        2 (.leaf (.int 9))) 1
      = valueAtF 2 [.leaf (.str "t"), .dictObj [("config", 0)]] 1
    ∧ valueAtF 2 (heapSet
        (deepcopyF 2 [.leaf (.str "t"), .dictObj [("config", 0)]] 1).1
        0 (.leaf (.int 9)))
        (deepcopyF 2 [.leaf (.str "t"), .dictObj [("config", 0)]] 1).2
      = valueAtF 2 (deepcopyF 2 [.leaf (.str "t"), .dictObj [("config", 0)]] 1).1
          (deepcopyF 2 [.leaf (.str "t"), .dictObj [("config", 0)]] 1).2 :=
  ⟨rfl, by decide,
    (@spec_C9_duplicate_isolation
      [.leaf (.str "t"), .dictObj [("config", 0)]] 1 2 rfl (by decide)).1
      2 (Nat.le_refl 2),
    (@spec_C9_duplicate_isolation
      [.leaf (.str "t"), .dictObj [("config", 0)]] 1 2 rfl (by decide)).2.1
      2 (.leaf (.int 9)) 2 (by decide),
    (@spec_C9_duplicate_isolation
      [.leaf (.str "t"), .dictObj [("config", 0)]] 1 2 rfl (by decide)).2.2
      0 (.leaf (.int 9)) 2 (by decide)⟩

theorem dumps_str_ne_dumps_dict (s : String) (kvs : List (String × Value)) :
    Json.dumps (.str s) ≠ Json.dumps (.dict kvs) := by
  intro h
  have hd := congrArg String.data h
  rw [show (Json.dumps (.str s)).data = Json.dumpsV (.str s) from rfl,
    show (Json.dumps (.dict kvs)).data = Json.dumpsV (.dict kvs) from rfl] at hd
  cases kvs with
  | nil =>
    rw [Json.dumpsV, Json.dumpsV] at hd
    simp at hd
  | cons kv rest =>
    rw [Json.dumpsV, Json.dumpsV] at hd
    simp at hd

/-- Claim C10 (implicit): the encode recursion is destructive and not
idempotent on special keys — it rewrites the tree, replacing the `config`
value with its `json.dumps` string, so a second application serializes that
string again, producing a different tree: after a save the in-memory layout
holds JSON strings under `config`/`filters`, and a second save would
double-encode them. -/
theorem spec_C10_encode_destructive (kvs : List (String × Value)) :
    recursive_parser_json2str (.dict [("config", .dict kvs)])
      = .dict [("config", .str (Json.dumps (.dict kvs)))]
    ∧ recursive_parser_json2str
        (recursive_parser_json2str (.dict [("config", .dict kvs)]))
      = .dict [("config", .str (Json.dumps (.str (Json.dumps (.dict kvs)))))]
    ∧ recursive_parser_json2str
        (recursive_parser_json2str (.dict [("config", .dict kvs)]))
      ≠ recursive_parser_json2str (.dict [("config", .dict kvs)]) := by
  have h1 : ∀ w : Value, recursive_parser_json2str (.dict [("config", w)])
      = .dict [("config", .str (Json.dumps w))] := by
    intro w
    rw [json2str_dict_eq, json2strKVs_cons]
    simp only []
    rw [if_pos (by decide : "config" ∈ special_parsing_keys),
      show json2strKVs [] = [] from rfl]
  refine ⟨h1 (.dict kvs), ?_, ?_⟩
  · rw [h1 (.dict kvs), h1 (.str (Json.dumps (.dict kvs)))]
  · rw [h1 (.dict kvs), h1 (.str (Json.dumps (.dict kvs)))]
    intro h
    simp only [Value.dict.injEq, List.cons.injEq, Prod.mk.injEq,
      Value.str.injEq, and_true, true_and] at h
    exact dumps_str_ne_dumps_dict (Json.dumps (.dict kvs)) kvs h

end PBIX

namespace PBIX

theorem spec_C10_witness :
    recursive_parser_json2str
        (recursive_parser_json2str (.dict [("config", .dict [("a", .int 1)])]))
      ≠ recursive_parser_json2str (.dict [("config", .dict [("a", .int 1)])]) :=
  (spec_C10_encode_destructive [("a", .int 1)]).2.2

end PBIX
